import Mathlib

/-!
Verification of the sparse-matrix assembly engine of the ArcaneFEM
repository (poisson module).  The mesh connectivity, the CSR sparsity
builders, the element kernels and the three scatter-assembly strategies
are shallowly embedded below; real values are modelled by rationals so
that accumulation is exact.  Definitions follow the C++ sources
(`CsrBiliAssembly.hxx`, `FemModule.cc`, `BlcsrBiliAssembly.hxx`,
`CsrGpuBiliAssembly.hxx`, `HypreDoFLinearSystem.cc`); the few
operations of the CSR store whose implementation is not among the
sources (`initialize`, `setCoordinates`, `matrixAddValue`) are modelled
from the specification and marked as such.
-/

namespace ArcaneFem

/-- A 2D simplicial mesh as the assembly engine sees it: `nbNode` nodes
numbered `0..nbNode-1` (DoF ids coincide with node ids, one scalar
unknown per node), faces given by their two endpoint node ids, cells by
their three ordered node ids, node coordinates, and the
ownership flag of each node under data distribution. -/
structure Mesh where
  nbNode : Nat
  faces : List (Nat × Nat)
  cells : List (Nat × Nat × Nat)
  coord : Nat → ℚ × ℚ
  own : Nat → Bool

/-- The `i`-th node of a 3-node cell (`cnc.nodeId(icell, i)`). -/
def cellNode (C : Nat × Nat × Nat) : Nat → Nat
  | 0 => C.1
  | 1 => C.2.1
  | _ => C.2.2

/-- The three nodes of a cell as a list (`cell.nodes()`). -/
def cellNodesList (C : Nat × Nat × Nat) : List Nat :=
  [C.1, C.2.1, C.2.2]

/-- Whether node `n` is an endpoint of face `f`. -/
def incident (n : Nat) (f : Nat × Nat) : Bool :=
  f.1 = n || f.2 = n

/-- The faces incident to node `n`, in mesh order (`node.faces()`). -/
def nodeFaces (m : Mesh) (n : Nat) : List (Nat × Nat) :=
  m.faces.filter (incident n)

/-- `node.nbFace()`: number of faces incident to the node. -/
def degree (m : Mesh) (n : Nat) : Nat :=
  (nodeFaces m n).length

/-- The neighbours of node `n` through its incident faces: for each
incident face, its other endpoint. -/
def faceNbrs (m : Mesh) (n : Nat) : List Nat :=
  (nodeFaces m n).map (fun f => if f.1 = n then f.2 else f.1)

/-- The cells incident to node `n`, in mesh order (`ncc.cells(inode)`). -/
def nodeCells (m : Mesh) (n : Nat) : List (Nat × Nat × Nat) :=
  m.cells.filter (fun C => n ∈ cellNodesList C)

/-- Two faces are the same undirected edge. -/
def sameEdge (f g : Nat × Nat) : Prop :=
  (f.1 = g.1 ∧ f.2 = g.2) ∨ (f.1 = g.2 ∧ f.2 = g.1)

instance : DecidablePred (fun p : (Nat × Nat) × Nat × Nat => sameEdge p.1 p.2) :=
  fun p => by unfold sameEdge; infer_instance

instance (f g : Nat × Nat) : Decidable (sameEdge f g) := by
  unfold sameEdge; infer_instance

/-- Validity of a mesh for the assembly engine: faces join two distinct
existing nodes, no two faces carry the same undirected edge, cells are
made of three distinct existing nodes, and every edge of a cell is a
face of the mesh (the 2D simplicial assumption of the capacity
formula). -/
structure ValidMesh (m : Mesh) : Prop where
  face_lt : ∀ f ∈ m.faces, f.1 < m.nbNode ∧ f.2 < m.nbNode
  face_ne : ∀ f ∈ m.faces, f.1 ≠ f.2
  face_nodup : m.faces.Pairwise (fun f g => ¬ sameEdge f g)
  cell_lt : ∀ C ∈ m.cells, ∀ i < 3, cellNode C i < m.nbNode
  cell_distinct : ∀ C ∈ m.cells, (cellNodesList C).Nodup
  cell_edge_face : ∀ C ∈ m.cells, ∀ i < 3, ∀ j < 3, i ≠ j →
    ∃ f ∈ m.faces, sameEdge f (cellNode C i, cellNode C j)

/-! ### Element kernels (FemModule.cc) -/

/-- `_computeAreaTriangle3`: signed area of a 3-node cell,
`0.5 * ((m1.x - m0.x) * (m2.y - m0.y) - (m2.x - m0.x) * (m1.y - m0.y))`. -/
def computeAreaTriangle3 (m : Mesh) (C : Nat × Nat × Nat) : ℚ :=
  let m0 := m.coord (cellNode C 0)
  let m1 := m.coord (cellNode C 1)
  let m2 := m.coord (cellNode C 2)
  (1/2) * ((m1.1 - m0.1) * (m2.2 - m0.2) - (m2.1 - m0.1) * (m1.2 - m0.2))

/-- The `dPhi` vectors of `_computeElementMatrixTRIA3`:
`dPhi0 = (m1.y - m2.y, m2.x - m1.x)`, `dPhi1 = (m2.y - m0.y, m0.x - m2.x)`,
`dPhi2 = (m0.y - m1.y, m1.x - m0.x)`. -/
def dPhi (m : Mesh) (C : Nat × Nat × Nat) : Nat → ℚ × ℚ
  | 0 =>
    let m1 := m.coord (cellNode C 1); let m2 := m.coord (cellNode C 2)
    (m1.2 - m2.2, m2.1 - m1.1)
  | 1 =>
    let m0 := m.coord (cellNode C 0); let m2 := m.coord (cellNode C 2)
    (m2.2 - m0.2, m0.1 - m2.1)
  | _ =>
    let m0 := m.coord (cellNode C 0); let m1 := m.coord (cellNode C 1)
    (m0.2 - m1.2, m1.1 - m0.1)

/-- The 2×3 `b_matrix` of `_computeElementMatrixTRIA3` after
`multInPlace(1.0 / (2.0 * area))`: row 0 holds the `x` components of the
`dPhi`, row 1 the `y` components, each multiplied by `1/(2*area)`. -/
def bMatrixCpu (m : Mesh) (C : Nat × Nat × Nat) (k i : Nat) : ℚ :=
  let mul := 1 / (2 * computeAreaTriangle3 m C)
  if k = 0 then (dPhi m C i).1 * mul else (dPhi m C i).2 * mul

/-- `_computeElementMatrixTRIA3`: the element stiffness matrix
`matrixMultiplication(matrixTranspose(b_matrix), b_matrix)` followed by
`multInPlace(area)`; entry `(i, j)` is `(sum_k b[k][i]*b[k][j]) * area`. -/
def computeElementMatrixTRIA3 (m : Mesh) (C : Nat × Nat × Nat) (i j : Nat) : ℚ :=
  (bMatrixCpu m C 0 i * bMatrixCpu m C 0 j + bMatrixCpu m C 1 i * bMatrixCpu m C 1 j)
    * computeAreaTriangle3 m C

/-- `_computeElementMatrixTRIA3GPU` (FemModule.cc): the same element
matrix computed into a flat `Real K_e[9]`, entry `i*3+j` produced by the
explicit `k < 2` accumulation loop. -/
def computeElementMatrixTRIA3GPU (m : Mesh) (C : Nat × Nat × Nat) : List ℚ :=
  let area := computeAreaTriangle3 m C
  let b : Nat → Nat → ℚ := fun k i =>
    if k = 0 then (dPhi m C i).1 * (1 / (2 * area)) else (dPhi m C i).2 * (1 / (2 * area))
  (List.range 3).flatMap fun i =>
    (List.range 3).map fun j => (b 0 i * b 0 j + b 1 i * b 1 j) * area

/-- `_computeCellMatrixGpuTRIA3` (BlcsrBiliAssembly.hxx): the flat
`Real b_matrix[6]`, `b_matrix[2*i] = dPhi_i.x * mul`,
`b_matrix[2*i+1] = dPhi_i.y * mul` with `mul = 1/(2*area)`; the area it
returns is `_computeAreaTriangle3Gpu`, modelled from the spec as the
same signed-area formula as `_computeAreaTriangle3` (its body is not
among the sources; only this caller is). -/
def computeCellMatrixGpuTRIA3B (m : Mesh) (C : Nat × Nat × Nat) : List ℚ :=
  let mul := 1 / (2 * computeAreaTriangle3 m C)
  [ (dPhi m C 0).1 * mul, (dPhi m C 0).2 * mul,
    (dPhi m C 1).1 * mul, (dPhi m C 1).2 * mul,
    (dPhi m C 2).1 * mul, (dPhi m C 2).2 * mul ]

/-! ### Sparsity sizing (CsrBiliAssembly.hxx, BlcsrBiliAssembly.hxx) -/

/-- The total reserved capacity `nnz = nbFace() * 2 + nbNode()` used by
every CSR sparsity builder. -/
def capacityNNZ (m : Mesh) : Nat :=
  m.faces.length * 2 + m.nbNode

/-- Reserved slot count of a node's row: `nfc.nbFace(inode) + 1`
(`_buildMatrixGpuBuildLessCsr` stores it in `tmp_row` before the scan;
`_buildMatrixBuildLessCsr` accumulates the same quantity). -/
def rowLen (m : Mesh) (r : Nat) : Nat :=
  degree m r + 1

/-- Row offset of row `r`: the exclusive prefix sum of the reserved
row lengths (`scanner.exclusiveSum` output). -/
def rowBegin (m : Mesh) (r : Nat) : Nat :=
  ((List.range r).map (rowLen m)).sum

/-- The row-offset array `m_csr_matrix.m_matrix_row` (one entry per
node, as read back by the scatter kernels). -/
def matrixRowArray (m : Mesh) : List Nat :=
  (List.range m.nbNode).map (rowBegin m)

/-! ### The CSR column/value store -/

/-- The mutable column/value arrays of the CSR store
(`m_matrix_column`, `m_matrix_value`); `-1` is the sentinel for an
unclaimed slot. -/
structure CsrState where
  col : List Int
  val : List ℚ
deriving DecidableEq

/-- The store right after `initialize(m_dof_family, nnz, nbNode)`:
columns all sentinel, values all zero (modelled from the spec: "the
column and value arrays are allocated to the total capacity and
initialized to the sentinel / zero respectively"). -/
def initState (m : Mesh) : CsrState :=
  ⟨List.replicate (capacityNNZ m) (-1), List.replicate (capacityNNZ m) 0⟩

/-- `_addValueToGlobalMatrixTria3Gpu` (BlcsrBiliAssembly.hxx): linear
probe from `b` to `e`; an unclaimed (`-1`) slot is claimed for column
`c` with value `x`, a slot already holding `c` is accumulated into, and
if the probe exhausts the span the store is returned unchanged. -/
def addValueToGlobalMatrixTria3Gpu (b e : Nat) (c : Int)
    (col : List Int) (val : List ℚ) (x : ℚ) : List Int × List ℚ :=
  if b < e then
    if col.getD b 0 = -1 then (col.set b c, val.set b x)
    else if col.getD b 0 = c then (col, val.set b (val.getD b 0 + x))
    else addValueToGlobalMatrixTria3Gpu (b + 1) e c col val x
  else (col, val)
termination_by e - b

/-- The inlined probe of `_assembleCsrAllGPUBilinearOperatorTRIA3`
(CsrGpuBiliAssembly.hxx): identical linear probe, but the match test
comes before the sentinel test, and the accumulation is the
`ax::doAtomic<Add>` on the value slot. -/
def csrGpuProbeAdd (b e : Nat) (c : Int)
    (col : List Int) (val : List ℚ) (v : ℚ) : List Int × List ℚ :=
  if b < e then
    if col.getD b 0 = c then (col, val.set b (val.getD b 0 + v))
    else if col.getD b 0 = -1 then (col.set b c, val.set b v)
    else csrGpuProbeAdd (b + 1) e c col val v
  else (col, val)
termination_by e - b

/-- Canonical result of the linear probe: the first index in `[b, e)`
whose slot either matches column `c` (flag `true`) or is the sentinel
(flag `false`); `none` when the span is exhausted. -/
def probeFind (col : List Int) (b e : Nat) (c : Int) : Option (Nat × Bool) :=
  if b < e then
    if col.getD b 0 = c then some (b, true)
    else if col.getD b 0 = -1 then some (b, false)
    else probeFind col (b + 1) e c
  else none
termination_by e - b

/-- Effect of a probe outcome on the column/value arrays: accumulate on
a match, claim on a sentinel, no change on exhaustion. -/
def applyFound (col : List Int) (val : List ℚ) (c : Int) (x : ℚ) :
    Option (Nat × Bool) → List Int × List ℚ
  | some (i, true) => (col, val.set i (val.getD i 0 + x))
  | some (i, false) => (col.set i c, val.set i x)
  | none => (col, val)

/-- Modelled from the spec: `CsrFormat::matrixAddValue` (the store's
implementation is not among the sources; only its callers are).  The
spec: "each local entry is located by scanning the owning row's slice
for the matching column (or the first sentinel) and the value is added
in place". -/
def csrMatrixAddValue (b e : Nat) (c : Int) (col : List Int) (val : List ℚ) (x : ℚ) :
    List Int × List ℚ :=
  applyFound col val c x (probeFind col b e c)

/-- Modelled from the spec: `CsrFormat::setCoordinates` (the store's
implementation is not among the sources; only its callers are).  It
records coordinate `(row, c)` in the row's reserved slice: nothing
changes when the column is already present, otherwise the first
sentinel slot is claimed for it; values are untouched. -/
def csrSetCoordinates (b e : Nat) (c : Int) (col : List Int) : List Int :=
  match probeFind col b e c with
  | some (_, true) => col
  | some (i, false) => col.set i c
  | none => col

theorem addValueToGlobalMatrixTria3Gpu_eq_probe (c : Int) (x : ℚ) (hc : c ≠ -1) :
    ∀ (n b e : Nat), e - b = n → ∀ (col : List Int) (val : List ℚ),
      addValueToGlobalMatrixTria3Gpu b e c col val x =
        applyFound col val c x (probeFind col b e c) := by
  intro n
  induction n using Nat.strong_induction_on with
  | _ n ih =>
    intro b e hn col val
    rw [addValueToGlobalMatrixTria3Gpu, probeFind]
    by_cases hbe : b < e
    · rw [if_pos hbe, if_pos hbe]
      by_cases hs : col.getD b 0 = -1
      · have hnc : ¬ col.getD b 0 = c := by rw [hs]; exact fun h => hc h.symm
        rw [if_pos hs, if_neg hnc, if_pos hs]
        rfl
      · by_cases hm : col.getD b 0 = c
        · rw [if_neg hs, if_pos hm, if_pos hm]
          rfl
        · rw [if_neg hs, if_neg hm, if_neg hm, if_neg hs]
          exact ih (e - (b + 1)) (by omega) (b + 1) e rfl col val
    · rw [if_neg hbe, if_neg hbe]
      rfl

theorem csrGpuProbeAdd_eq_probe (c : Int) (v : ℚ) :
    ∀ (n b e : Nat), e - b = n → ∀ (col : List Int) (val : List ℚ),
      csrGpuProbeAdd b e c col val v = applyFound col val c v (probeFind col b e c) := by
  intro n
  induction n using Nat.strong_induction_on with
  | _ n ih =>
    intro b e hn col val
    rw [csrGpuProbeAdd, probeFind]
    by_cases hbe : b < e
    · rw [if_pos hbe, if_pos hbe]
      by_cases hm : col.getD b 0 = c
      · rw [if_pos hm, if_pos hm]
        rfl
      · by_cases hs : col.getD b 0 = -1
        · rw [if_neg hm, if_pos hs, if_neg hm, if_pos hs]
          rfl
        · rw [if_neg hm, if_neg hs, if_neg hm, if_neg hs]
          exact ih (e - (b + 1)) (by omega) (b + 1) e rfl col val
    · rw [if_neg hbe, if_neg hbe]
      rfl

/-! ### Small list helpers -/

theorem getD_set_self {α : Type} {l : List α} {i : Nat} {a d : α} (h : i < l.length) :
    (l.set i a).getD i d = a := by
  simp [List.getD, List.getElem?_set_self, h]

theorem getD_set_ne {α : Type} {l : List α} {i j : Nat} {a d : α} (h : i ≠ j) :
    (l.set i a).getD j d = l.getD j d := by
  simp [List.getD, List.getElem?_set_ne h]

theorem set_getD_self {α : Type} (l : List α) (i : Nat) (d : α) (h : i < l.length) :
    l.set i (l.getD i d) = l := by
  apply List.ext_getElem
  · simp
  · intro j h1 h2
    by_cases hj : i = j
    · subst hj
      rw [List.getElem_set_self]
      simp [List.getD, List.getElem?_eq_getElem, h]
    · rw [List.getElem_set_ne hj]

theorem probeFind_bounds (col : List Int) (c : Int) :
    ∀ (n b e i : Nat) (fl : Bool), e - b = n →
      probeFind col b e c = some (i, fl) → b ≤ i ∧ i < e := by
  intro n
  induction n using Nat.strong_induction_on with
  | _ n ih =>
    intro b e i fl hn hp
    rw [probeFind] at hp
    by_cases hbe : b < e
    · rw [if_pos hbe] at hp
      by_cases hm : col.getD b 0 = c
      · rw [if_pos hm] at hp
        have : b = i := congrArg (fun o => (o.getD (0, false)).1) hp
        omega
      · rw [if_neg hm] at hp
        by_cases hs : col.getD b 0 = -1
        · rw [if_pos hs] at hp
          have : b = i := congrArg (fun o => (o.getD (0, false)).1) hp
          omega
        · rw [if_neg hs] at hp
          have := ih (e - (b + 1)) (by omega) (b + 1) e i fl rfl hp
          omega
    · rw [if_neg hbe] at hp
      exact absurd hp (by simp)

theorem probeFind_eq_match (col : List Int) (c : Int) :
    ∀ (n b e i0 : Nat), e - b = n → b ≤ i0 → i0 < e →
      col.getD i0 0 = c →
      (∀ j, b ≤ j → j < i0 → col.getD j 0 ≠ c ∧ col.getD j 0 ≠ -1) →
      probeFind col b e c = some (i0, true) := by
  intro n
  induction n using Nat.strong_induction_on with
  | _ n ih =>
    intro b e i0 hn hbi hie hmatch hmin
    have hbe : b < e := lt_of_le_of_lt hbi hie
    rw [probeFind, if_pos hbe]
    by_cases hb : b = i0
    · subst hb
      rw [if_pos hmatch]
    · have hlt : b < i0 := lt_of_le_of_ne hbi hb
      obtain ⟨h1, h2⟩ := hmin b le_rfl hlt
      rw [if_neg h1, if_neg h2]
      exact ih (e - (b + 1)) (by omega) (b + 1) e i0 rfl (by omega) hie hmatch
        (fun j hj1 hj2 => hmin j (by omega) hj2)

theorem probeFind_eq_claim (col : List Int) (c : Int) (hc : c ≠ -1) :
    ∀ (n b e i0 : Nat), e - b = n → b ≤ i0 → i0 < e →
      col.getD i0 0 = -1 →
      (∀ j, b ≤ j → j < i0 → col.getD j 0 ≠ c ∧ col.getD j 0 ≠ -1) →
      probeFind col b e c = some (i0, false) := by
  intro n
  induction n using Nat.strong_induction_on with
  | _ n ih =>
    intro b e i0 hn hbi hie hsent hmin
    have hbe : b < e := lt_of_le_of_lt hbi hie
    rw [probeFind, if_pos hbe]
    by_cases hb : b = i0
    · subst hb
      have hnc : col.getD b 0 ≠ c := by rw [hsent]; exact fun h => hc h.symm
      rw [if_neg hnc, if_pos hsent]
    · have hlt : b < i0 := lt_of_le_of_ne hbi hb
      obtain ⟨h1, h2⟩ := hmin b le_rfl hlt
      rw [if_neg h1, if_neg h2]
      exact ih (e - (b + 1)) (by omega) (b + 1) e i0 rfl (by omega) hie hsent
        (fun j hj1 hj2 => hmin j (by omega) hj2)

/-! ### Row invariant of the claim-or-match store -/

/-- The columns currently claimed in the prefix of a row span. -/
def claimedCols (s : CsrState) (b k : Nat) : List Int :=
  (List.range k).map (fun i => s.col.getD (b + i) 0)

/-- Invariant of one reserved row span `[b, b+len)`: a prefix of `k`
claimed slots whose columns are distinct members of `allowed`, followed
by untouched sentinel slots with zero values. -/
def RowOk (s : CsrState) (b len : Nat) (allowed : List Int) : Prop :=
  ∃ k, k ≤ len ∧
    (∀ i, i < k → s.col.getD (b + i) 0 ∈ allowed) ∧
    (∀ i, k ≤ i → i < len → s.col.getD (b + i) 0 = -1 ∧ s.val.getD (b + i) 0 = 0) ∧
    (claimedCols s b k).Nodup

/-- Total value stored in the span `[b, b+len)` for column `c`. -/
def rowSum (s : CsrState) (b len : Nat) (c : Int) : ℚ :=
  ((List.range len).map
    (fun i => if s.col.getD (b + i) 0 = c then s.val.getD (b + i) 0 else 0)).sum

theorem sum_map_range_congr {n : Nat} {f g : Nat → ℚ} (h : ∀ i < n, f i = g i) :
    ((List.range n).map f).sum = ((List.range n).map g).sum := by
  induction n with
  | zero => rfl
  | succ m ih =>
    rw [List.range_succ, List.map_append, List.map_append, List.sum_append, List.sum_append]
    rw [ih (fun i hi => h i (by omega))]
    simp [h m (by omega)]

theorem sum_map_range_update {n : Nat} (f g : Nat → ℚ) (i : Nat) (hi : i < n)
    (h : ∀ j < n, j ≠ i → g j = f j) :
    ((List.range n).map g).sum = ((List.range n).map f).sum + (g i - f i) := by
  induction n with
  | zero => omega
  | succ m ih =>
    rw [List.range_succ, List.map_append, List.map_append, List.sum_append, List.sum_append]
    by_cases him : i = m
    · subst him
      rw [sum_map_range_congr (n := i) (f := g) (g := f)
        (fun j hj => h j (by omega) (by omega))]
      simp only [List.map_cons, List.map_nil, List.sum_cons, List.sum_nil]
      ring
    · have hi2 : i < m := by omega
      rw [ih hi2 (fun j hj hji => h j (by omega) hji)]
      simp only [List.map_cons, List.map_nil, List.sum_cons, List.sum_nil]
      rw [h m (by omega) (fun hmi => him hmi.symm)]
      ring

theorem mem_claimedCols {s : CsrState} {b k : Nat} {c : Int} :
    c ∈ claimedCols s b k ↔ ∃ i, i < k ∧ s.col.getD (b + i) 0 = c := by
  simp only [claimedCols, List.mem_map, List.mem_range]

/-- The canonical claim-or-match application of one contribution inside
the row span `[b, b+len)`. -/
def applyCanonAt (s : CsrState) (b len : Nat) (c : Int) (x : ℚ) : CsrState :=
  let p := applyFound s.col s.val c x (probeFind s.col b (b + len) c)
  ⟨p.1, p.2⟩

theorem rowSum_lit (col : List Int) (val : List ℚ) (b len : Nat) (c : Int) :
    rowSum ⟨col, val⟩ b len c =
      ((List.range len).map
        (fun i => if col.getD (b + i) 0 = c then val.getD (b + i) 0 else 0)).sum := rfl

theorem rowSum_accumulate (col : List Int) (val : List ℚ) (b len i1 : Nat) (c : Int) (x : ℚ)
    (hi1 : i1 < len) (hb : b + i1 < val.length) (hcol : col.getD (b + i1) 0 = c) :
    rowSum ⟨col, val.set (b + i1) (val.getD (b + i1) 0 + x)⟩ b len c
      = rowSum ⟨col, val⟩ b len c + x := by
  rw [rowSum_lit, rowSum_lit]
  rw [sum_map_range_update
    (fun i => if col.getD (b + i) 0 = c then val.getD (b + i) 0 else 0)
    (fun i => if col.getD (b + i) 0 = c then
      (val.set (b + i1) (val.getD (b + i1) 0 + x)).getD (b + i) 0 else 0)
    i1 hi1 (by
      intro j hj hji
      simp only []
      by_cases hcj : col.getD (b + j) 0 = c
      · rw [if_pos hcj, if_pos hcj, getD_set_ne (show b + i1 ≠ b + j by omega)]
      · rw [if_neg hcj, if_neg hcj])]
  simp only [if_pos hcol, getD_set_self hb]
  ring

theorem rowSum_set_val_other (col : List Int) (val : List ℚ) (b len i1 : Nat) (c c2 : Int)
    (y : ℚ) (hcol : col.getD (b + i1) 0 = c) (hne : c2 ≠ c) :
    rowSum ⟨col, val.set (b + i1) y⟩ b len c2 = rowSum ⟨col, val⟩ b len c2 := by
  rw [rowSum_lit, rowSum_lit]
  apply sum_map_range_congr
  intro i hi
  by_cases hci : col.getD (b + i) 0 = c2
  · have hne2 : b + i1 ≠ b + i := by
      intro h
      have hii : i = i1 := by omega
      rw [hii] at hci
      exact hne (hci.symm.trans hcol)
    rw [if_pos hci, if_pos hci, getD_set_ne hne2]
  · rw [if_neg hci, if_neg hci]

theorem rowSum_claim_same (col : List Int) (val : List ℚ) (b len k : Nat) (c : Int) (x : ℚ)
    (hk : k < len) (hbc : b + k < col.length) (hbv : b + k < val.length)
    (hsent : col.getD (b + k) 0 = -1) (hc : c ≠ -1) :
    rowSum ⟨col.set (b + k) c, val.set (b + k) x⟩ b len c
      = rowSum ⟨col, val⟩ b len c + x := by
  have hnc : col.getD (b + k) 0 ≠ c := by rw [hsent]; exact fun h => hc h.symm
  rw [rowSum_lit, rowSum_lit]
  rw [sum_map_range_update
    (fun i => if col.getD (b + i) 0 = c then val.getD (b + i) 0 else 0)
    (fun i => if (col.set (b + k) c).getD (b + i) 0 = c then
      (val.set (b + k) x).getD (b + i) 0 else 0)
    k hk (by
      intro j hj hjk
      simp only []
      rw [getD_set_ne (show b + k ≠ b + j by omega),
        getD_set_ne (show b + k ≠ b + j by omega)])]
  simp only [getD_set_self hbc, getD_set_self hbv, if_neg hnc, eq_self_iff_true, if_true]
  ring

theorem rowSum_claim_other (col : List Int) (val : List ℚ) (b len k : Nat) (c c2 : Int)
    (x : ℚ) (hbc : b + k < col.length)
    (hsent : col.getD (b + k) 0 = -1) (hv0 : val.getD (b + k) 0 = 0) (hne : c2 ≠ c) :
    rowSum ⟨col.set (b + k) c, val.set (b + k) x⟩ b len c2 = rowSum ⟨col, val⟩ b len c2 := by
  rw [rowSum_lit, rowSum_lit]
  apply sum_map_range_congr
  intro i hi
  by_cases hik : i = k
  · subst hik
    rw [getD_set_self hbc, if_neg (Ne.symm hne), hsent]
    by_cases hm1 : (-1 : Int) = c2
    · rw [if_pos hm1, hv0]
    · rw [if_neg hm1]
  · rw [getD_set_ne (show b + k ≠ b + i by omega),
      getD_set_ne (show b + k ≠ b + i by omega)]

/-- One claim-or-match application at a row with spare capacity: the
row invariant is preserved, the stored total of the targeted column
grows by `x`, every other column total is untouched, and no slot
outside the row span is modified. -/
theorem applyCanonAt_spec (s : CsrState) (b len : Nat) (allowed : List Int) (c : Int) (x : ℚ)
    (hrow : RowOk s b len allowed)
    (hall_len : allowed.length ≤ len)
    (hall_sent : (-1 : Int) ∉ allowed) (hc : c ∈ allowed)
    (hlen : b + len ≤ s.col.length) (hvl : s.val.length = s.col.length) :
    RowOk (applyCanonAt s b len c x) b len allowed ∧
    (applyCanonAt s b len c x).col.length = s.col.length ∧
    (applyCanonAt s b len c x).val.length = s.val.length ∧
    rowSum (applyCanonAt s b len c x) b len c = rowSum s b len c + x ∧
    (∀ c2 : Int, c2 ≠ c → rowSum (applyCanonAt s b len c x) b len c2 = rowSum s b len c2) ∧
    (∀ i : Nat, i < b ∨ b + len ≤ i →
      (applyCanonAt s b len c x).col.getD i 0 = s.col.getD i 0 ∧
      (applyCanonAt s b len c x).val.getD i 0 = s.val.getD i 0) := by
  obtain ⟨k, hk, hclaim, hsent, hnodup⟩ := hrow
  have hnodup' : ((List.range k).map (fun i => s.col.getD (b + i) 0)).Nodup := hnodup
  have hcnes : c ≠ -1 := fun h => hall_sent (h ▸ hc)
  by_cases hin : ∃ i1, i1 < k ∧ s.col.getD (b + i1) 0 = c
  · -- the column is already claimed at offset i1
    obtain ⟨i1, hi1k, hmatch⟩ := hin
    have huniq : ∀ i, i < k → s.col.getD (b + i) 0 = c → i = i1 := fun i hik hci =>
      List.inj_on_of_nodup_map hnodup' (List.mem_range.mpr hik) (List.mem_range.mpr hi1k)
        (hci.trans hmatch.symm)
    have hmin : ∀ j, b ≤ j → j < b + i1 → s.col.getD j 0 ≠ c ∧ s.col.getD j 0 ≠ -1 := by
      intro j hj1 hj2
      have hjk : j - b < k := by omega
      have hoff : j = b + (j - b) := by omega
      rw [hoff]
      constructor
      · intro hbad
        have := huniq (j - b) hjk hbad
        omega
      · intro hbad
        exact hall_sent (hbad ▸ hclaim (j - b) hjk)
    have hfind : probeFind s.col b (b + len) c = some (b + i1, true) :=
      probeFind_eq_match s.col c (b + len - b) b (b + len) (b + i1) rfl (by omega) (by omega)
        hmatch hmin
    have hbv : b + i1 < s.val.length := by omega
    have happ : applyCanonAt s b len c x =
        ⟨s.col, s.val.set (b + i1) (s.val.getD (b + i1) 0 + x)⟩ := by
      rw [applyCanonAt, hfind]
      rfl
    rw [happ]
    refine ⟨⟨k, hk, fun i hik => hclaim i hik, ?_, hnodup⟩, rfl, by simp, ?_, ?_, ?_⟩
    · intro i hki hil
      refine ⟨(hsent i hki hil).1, ?_⟩
      show (s.val.set (b + i1) (s.val.getD (b + i1) 0 + x)).getD (b + i) 0 = 0
      rw [getD_set_ne (show b + i1 ≠ b + i by omega)]
      exact (hsent i hki hil).2
    · exact rowSum_accumulate s.col s.val b len i1 c x (by omega) hbv hmatch
    · intro c2 hc2
      exact rowSum_set_val_other s.col s.val b len i1 c c2 _ hmatch hc2
    · intro i hi
      refine ⟨rfl, ?_⟩
      show (s.val.set (b + i1) (s.val.getD (b + i1) 0 + x)).getD i 0 = s.val.getD i 0
      rw [getD_set_ne (show b + i1 ≠ i by omega)]
  · -- the column is not yet claimed: the first sentinel slot is taken
    have hnotin : ∀ i, i < k → s.col.getD (b + i) 0 ≠ c := fun i hik hbad =>
      hin ⟨i, hik, hbad⟩
    have hsub : (c :: claimedCols s b k) ⊆ allowed := by
      intro a ha
      rcases List.mem_cons.mp ha with h | h
      · exact h ▸ hc
      · obtain ⟨i, hi, hci⟩ := mem_claimedCols.mp h
        exact hci ▸ hclaim i hi
    have hndc : (c :: claimedCols s b k).Nodup := by
      refine List.nodup_cons.mpr ⟨?_, hnodup⟩
      intro hmem
      obtain ⟨i, hi, hci⟩ := mem_claimedCols.mp hmem
      exact hnotin i hi hci
    have hklen : k + 1 ≤ allowed.length := by
      have h1 := (List.subperm_of_subset hndc hsub).length_le
      simpa [claimedCols] using h1
    have hklt : k < len := by omega
    have hsentk := hsent k le_rfl hklt
    have hmin : ∀ j, b ≤ j → j < b + k → s.col.getD j 0 ≠ c ∧ s.col.getD j 0 ≠ -1 := by
      intro j hj1 hj2
      have hjk : j - b < k := by omega
      have hoff : j = b + (j - b) := by omega
      rw [hoff]
      constructor
      · exact hnotin (j - b) hjk
      · intro hbad
        exact hall_sent (hbad ▸ hclaim (j - b) hjk)
    have hfind : probeFind s.col b (b + len) c = some (b + k, false) :=
      probeFind_eq_claim s.col c hcnes (b + len - b) b (b + len) (b + k) rfl (by omega)
        (by omega) hsentk.1 hmin
    have hbc : b + k < s.col.length := by omega
    have hbv : b + k < s.val.length := by omega
    have happ : applyCanonAt s b len c x =
        ⟨s.col.set (b + k) c, s.val.set (b + k) x⟩ := by
      rw [applyCanonAt, hfind]
      rfl
    rw [happ]
    refine ⟨⟨k + 1, by omega, ?_, ?_, ?_⟩, by simp, by simp, ?_, ?_, ?_⟩
    · intro i hik
      show (s.col.set (b + k) c).getD (b + i) 0 ∈ allowed
      by_cases hltk : i < k
      · rw [getD_set_ne (show b + k ≠ b + i by omega)]
        exact hclaim i hltk
      · have hieq : i = k := by omega
        rw [hieq, getD_set_self hbc]
        exact hc
    · intro i hki hil
      have hne2 : b + k ≠ b + i := by omega
      constructor
      · show (s.col.set (b + k) c).getD (b + i) 0 = -1
        rw [getD_set_ne hne2]
        exact (hsent i (by omega) hil).1
      · show (s.val.set (b + k) x).getD (b + i) 0 = 0
        rw [getD_set_ne hne2]
        exact (hsent i (by omega) hil).2
    · have hcc : claimedCols ⟨s.col.set (b + k) c, s.val.set (b + k) x⟩ b (k + 1) =
          claimedCols s b k ++ [c] := by
        simp only [claimedCols]
        rw [List.range_succ, List.map_append]
        congr 1
        · apply List.map_congr_left
          intro i hi
          have hik : i < k := List.mem_range.mp hi
          exact getD_set_ne (show b + k ≠ b + i by omega)
        · simp only [List.map_cons, List.map_nil]
          rw [getD_set_self hbc]
      rw [hcc, List.nodup_append]
      refine ⟨hnodup, List.nodup_singleton c, ?_⟩
      intro a ha hb2
      rw [List.mem_singleton.mp hb2] at ha
      exact (List.nodup_cons.mp hndc).1 ha
    · exact rowSum_claim_same s.col s.val b len k c x hklt hbc hbv hsentk.1 hcnes
    · intro c2 hc2
      exact rowSum_claim_other s.col s.val b len k c c2 x hbc hsentk.1 hsentk.2 hc2
    · intro i hi
      have hne2 : b + k ≠ i := by omega
      constructor
      · show (s.col.set (b + k) c).getD i 0 = s.col.getD i 0
        rw [getD_set_ne hne2]
      · show (s.val.set (b + k) x).getD i 0 = s.val.getD i 0
        rw [getD_set_ne hne2]

/-! ### Row span arithmetic -/

theorem rowBegin_succ (m : Mesh) (r : Nat) :
    rowBegin m (r + 1) = rowBegin m r + rowLen m r := by
  rw [rowBegin, rowBegin, List.range_succ, List.map_append, List.sum_append]
  simp

theorem rowBegin_mono (m : Mesh) {r1 r2 : Nat} (h : r1 ≤ r2) :
    rowBegin m r1 ≤ rowBegin m r2 := by
  induction r2 with
  | zero =>
    have h0 : r1 = 0 := by omega
    rw [h0]
  | succ n ih =>
    by_cases hr : r1 = n + 1
    · rw [hr]
    · have h2 := ih (by omega)
      rw [rowBegin_succ]
      omega

theorem rowBegin_add_len_le (m : Mesh) {r1 r2 : Nat} (h : r1 < r2) :
    rowBegin m r1 + rowLen m r1 ≤ rowBegin m r2 := by
  rw [← rowBegin_succ]
  exact rowBegin_mono m h

theorem list_range_map_sum {M : Type} [AddCommMonoid M] (n : Nat) (f : Nat → M) :
    ((List.range n).map f).sum = ∑ i ∈ Finset.range n, f i := by
  induction n with
  | zero => simp
  | succ k ih =>
    rw [List.range_succ, List.map_append, List.sum_append, Finset.sum_range_succ, ih]
    simp

/-- Handshake count: over all node ids, the incidence degrees of a list
of faces with two distinct valid endpoints sum to twice the number of
faces. -/
theorem degree_sum (N : Nat) :
    ∀ (fs : List (Nat × Nat)), (∀ f ∈ fs, f.1 < N ∧ f.2 < N ∧ f.1 ≠ f.2) →
      (∑ r ∈ Finset.range N, (fs.filter (incident r)).length) = 2 * fs.length := by
  intro fs
  induction fs with
  | nil => simp
  | cons f fs ih =>
    intro h
    have hf := h f (List.mem_cons_self f fs)
    have hfs : ∀ g ∈ fs, g.1 < N ∧ g.2 < N ∧ g.1 ≠ g.2 :=
      fun g hg => h g (List.mem_cons_of_mem f hg)
    have hstep : ∀ r, ((f :: fs).filter (incident r)).length =
        (if incident r f = true then 1 else 0) + (fs.filter (incident r)).length := by
      intro r
      rw [List.filter_cons]
      by_cases hif : incident r f = true
      · rw [if_pos hif, if_pos hif]
        simp only [List.length_cons]
        omega
      · rw [if_neg hif, if_neg hif]
        omega
    rw [Finset.sum_congr rfl (fun r _ => hstep r), Finset.sum_add_distrib, ih hfs]
    have hpoint : ∀ r ∈ Finset.range N, (if incident r f = true then (1 : Nat) else 0) =
        (if r = f.1 then 1 else 0) + (if r = f.2 then 1 else 0) := by
      intro r _
      by_cases h1 : r = f.1
      · have h2 : ¬ r = f.2 := by rw [h1]; exact hf.2.2
        have hinc : incident r f = true := by
          simp [incident, h1.symm]
        rw [if_pos hinc, if_pos h1, if_neg h2]
      · by_cases h2 : r = f.2
        · have hinc : incident r f = true := by
            simp [incident, h2.symm]
          rw [if_pos hinc, if_neg h1, if_pos h2]
        · have hinc : ¬ incident r f = true := by
            simp only [incident, Bool.or_eq_true, decide_eq_true_eq]
            push_neg
            exact ⟨fun hh => h1 hh.symm, fun hh => h2 hh.symm⟩
          rw [if_neg hinc, if_neg h1, if_neg h2]
    rw [Finset.sum_congr rfl hpoint, Finset.sum_add_distrib]
    rw [Finset.sum_ite_eq' (Finset.range N) f.1 (fun _ => (1 : Nat))]
    rw [Finset.sum_ite_eq' (Finset.range N) f.2 (fun _ => (1 : Nat))]
    rw [if_pos (Finset.mem_range.mpr hf.1), if_pos (Finset.mem_range.mpr hf.2.1)]
    simp only [List.length_cons]
    ring

/-- Under mesh validity the reserved row lengths exactly exhaust the
`nnz = 2*|faces| + |nodes|` capacity. -/
theorem rowBegin_total (m : Mesh) (hm : ValidMesh m) :
    rowBegin m m.nbNode = capacityNNZ m := by
  rw [rowBegin, capacityNNZ, list_range_map_sum]
  have hlen : ∀ r, rowLen m r = (m.faces.filter (incident r)).length + 1 := by
    intro r
    rw [rowLen, degree, nodeFaces]
  rw [Finset.sum_congr rfl (fun r _ => hlen r), Finset.sum_add_distrib]
  rw [degree_sum m.nbNode m.faces
    (fun f hf => ⟨(hm.face_lt f hf).1, (hm.face_lt f hf).2, hm.face_ne f hf⟩)]
  simp only [Finset.sum_const, smul_eq_mul, mul_one, Finset.card_range]
  omega

theorem span_in_capacity (m : Mesh) (hm : ValidMesh m) {r : Nat} (hr : r < m.nbNode) :
    rowBegin m r + rowLen m r ≤ capacityNNZ m := by
  rw [← rowBegin_total m hm, ← rowBegin_succ]
  exact rowBegin_mono m hr

theorem getD_replicate {α : Type} (n i : Nat) (a d : α) (h : i < n) :
    (List.replicate n a).getD i d = a := by
  simp [List.getD, h]

/-- When a column can never be claimed in a row, its stored total is
zero. -/
theorem rowSum_eq_zero_of_not_allowed (s : CsrState) (b len : Nat) (allowed : List Int)
    (c : Int) (hrow : RowOk s b len allowed) (hc : c ∉ allowed) (hcs : c ≠ -1) :
    rowSum s b len c = 0 := by
  obtain ⟨k, hk, hclaim, hsent, _⟩ := hrow
  rw [rowSum]
  rw [sum_map_range_congr (g := fun _ => (0 : ℚ)) ?_]
  · simp
  · intro i hi
    by_cases hik : i < k
    · rw [if_neg]
      intro hbad
      exact hc (hbad ▸ hclaim i hik)
    · rw [if_neg]
      rw [(hsent i (by omega) hi).1]
      exact fun h => hcs h.symm

/-! ### Allowed columns of a row -/

/-- The columns that can legitimately appear in the row of node `r`:
the node itself and its face neighbours. -/
def allowedCols (m : Mesh) (r : Nat) : List Nat :=
  r :: faceNbrs m r

/-- The same column set as `Int` column indices. -/
def allowedColsI (m : Mesh) (r : Nat) : List Int :=
  (allowedCols m r).map Int.ofNat

theorem self_not_mem_faceNbrs (m : Mesh) (hm : ValidMesh m) (r : Nat) :
    r ∉ faceNbrs m r := by
  intro hmem
  rw [faceNbrs, List.mem_map] at hmem
  obtain ⟨f, hf, hval⟩ := hmem
  rw [nodeFaces, List.mem_filter] at hf
  have hne := hm.face_ne f hf.1
  by_cases h1 : f.1 = r
  · rw [if_pos h1] at hval
    exact hne (h1.trans hval.symm)
  · rw [if_neg h1] at hval
    exact h1 hval

theorem faceNbrs_nodup (m : Mesh) (hm : ValidMesh m) (r : Nat) :
    (faceNbrs m r).Nodup := by
  rw [faceNbrs, List.Nodup, List.pairwise_map]
  have hsub : List.Sublist (nodeFaces m r) m.faces := by
    rw [nodeFaces]
    exact List.filter_sublist m.faces
  have hpw : (nodeFaces m r).Pairwise (fun f g => ¬ sameEdge f g) :=
    (hm.face_nodup).sublist hsub
  apply hpw.imp_of_mem
  intro f g hfm hgm hne heq
  apply hne
  have hfi : incident r f = true := (List.mem_filter.mp (by rw [nodeFaces] at hfm; exact hfm)).2
  have hgi : incident r g = true := (List.mem_filter.mp (by rw [nodeFaces] at hgm; exact hgm)).2
  rw [incident, Bool.or_eq_true, decide_eq_true_eq, decide_eq_true_eq] at hfi hgi
  rw [sameEdge]
  by_cases hf1 : f.1 = r
  · rw [if_pos hf1] at heq
    by_cases hg1 : g.1 = r
    · rw [if_pos hg1] at heq
      left
      exact ⟨hf1.trans hg1.symm, heq⟩
    · rw [if_neg hg1] at heq
      have hg2 : g.2 = r := hgi.resolve_left hg1
      right
      exact ⟨hf1.trans hg2.symm, heq⟩
  · rw [if_neg hf1] at heq
    have hf2 : f.2 = r := hfi.resolve_left hf1
    by_cases hg1 : g.1 = r
    · rw [if_pos hg1] at heq
      right
      exact ⟨heq, hf2.trans hg1.symm⟩
    · rw [if_neg hg1] at heq
      have hg2 : g.2 = r := hgi.resolve_left hg1
      left
      exact ⟨heq, hf2.trans hg2.symm⟩

theorem allowedColsI_nodup (m : Mesh) (hm : ValidMesh m) (r : Nat) :
    (allowedColsI m r).Nodup := by
  rw [allowedColsI]
  apply List.Nodup.map
  · intro a b hab
    exact Int.ofNat.inj hab
  · rw [allowedCols]
    exact List.nodup_cons.mpr ⟨self_not_mem_faceNbrs m hm r, faceNbrs_nodup m hm r⟩

theorem neg_one_not_mem_allowedColsI (m : Mesh) (r : Nat) :
    (-1 : Int) ∉ allowedColsI m r := by
  intro h
  rw [allowedColsI, List.mem_map] at h
  obtain ⟨a, _, ha⟩ := h
  have hnn : (0 : Int) ≤ Int.ofNat a := Int.ofNat_nonneg a
  omega

theorem allowedColsI_length (m : Mesh) (r : Nat) :
    (allowedColsI m r).length = rowLen m r := by
  simp [allowedColsI, allowedCols, faceNbrs, rowLen, degree]

/-! ### The global state invariant and the generic scatter fold -/

/-- A contribution scattered into the store:
`(row dof, column dof, value)`. -/
abbrev Contrib := Nat × Nat × ℚ

/-- Invariant of the whole store during assembly: the arrays have the
reserved `nnz` capacity and every row of an existing node satisfies the
claim-or-match row invariant for its allowed column set. -/
structure StateOk (m : Mesh) (s : CsrState) : Prop where
  col_len : s.col.length = capacityNNZ m
  val_len : s.val.length = capacityNNZ m
  rows : ∀ r, r < m.nbNode → RowOk s (rowBegin m r) (rowLen m r) (allowedColsI m r)

/-- Canonical application of one contribution: claim-or-match in the
owning row's reserved span. -/
def applyCanon (m : Mesh) (s : CsrState) (t : Contrib) : CsrState :=
  applyCanonAt s (rowBegin m t.1) (rowLen m t.1) (Int.ofNat t.2.1) t.2.2

/-- The matrix entry `(r, c)` stored by the CSR store: the total value
held for column `c` in row `r`'s reserved span. -/
def matVal (m : Mesh) (s : CsrState) (r c : Nat) : ℚ :=
  rowSum s (rowBegin m r) (rowLen m r) (Int.ofNat c)

/-- The total contribution scattered at `(r, c)` by a contribution
list. -/
def contribSum (cs : List Contrib) (r c : Nat) : ℚ :=
  (cs.map (fun t => if t.1 = r ∧ t.2.1 = c then t.2.2 else 0)).sum

theorem rowSum_congr {s1 s2 : CsrState} {b len : Nat} (c : Int)
    (h : ∀ i, b ≤ i → i < b + len →
      s2.col.getD i 0 = s1.col.getD i 0 ∧ s2.val.getD i 0 = s1.val.getD i 0) :
    rowSum s2 b len c = rowSum s1 b len c := by
  rw [rowSum, rowSum]
  apply sum_map_range_congr
  intro i hi
  rw [(h (b + i) (by omega) (by omega)).1, (h (b + i) (by omega) (by omega)).2]

theorem RowOk_congr {s1 s2 : CsrState} {b len : Nat} {allowed : List Int}
    (h : ∀ i, b ≤ i → i < b + len →
      s2.col.getD i 0 = s1.col.getD i 0 ∧ s2.val.getD i 0 = s1.val.getD i 0)
    (hok : RowOk s1 b len allowed) : RowOk s2 b len allowed := by
  obtain ⟨k, hk, hclaim, hsent, hnodup⟩ := hok
  refine ⟨k, hk, ?_, ?_, ?_⟩
  · intro i hik
    rw [(h (b + i) (by omega) (by omega)).1]
    exact hclaim i hik
  · intro i hki hil
    rw [(h (b + i) (by omega) (by omega)).1, (h (b + i) (by omega) (by omega)).2]
    exact hsent i hki hil
  · have hcc : claimedCols s2 b k = claimedCols s1 b k := by
      simp only [claimedCols]
      apply List.map_congr_left
      intro i hi
      have hik := List.mem_range.mp hi
      exact (h (b + i) (by omega) (by omega)).1
    rw [hcc]
    exact hnodup

theorem span_disjoint (m : Mesh) {r1 r2 : Nat} (h : r1 ≠ r2) {i : Nat}
    (hi1 : rowBegin m r2 ≤ i) (hi2 : i < rowBegin m r2 + rowLen m r2) :
    i < rowBegin m r1 ∨ rowBegin m r1 + rowLen m r1 ≤ i := by
  by_cases hlt : r2 < r1
  · left
    have := rowBegin_add_len_le m hlt
    omega
  · right
    have hgt : r1 < r2 := by omega
    have := rowBegin_add_len_le m hgt
    omega

/-- Scattering one contribution with a valid row and an allowed column
preserves the store invariant, adds the value at exactly its matrix
coordinate, and leaves every slot outside the owning row's span
untouched. -/
theorem applyCanon_spec (m : Mesh) (hm : ValidMesh m) (s : CsrState) (hs : StateOk m s)
    (t : Contrib) (hr : t.1 < m.nbNode) (hc : t.2.1 ∈ allowedCols m t.1) :
    StateOk m (applyCanon m s t) ∧
    (∀ r c, r < m.nbNode →
      matVal m (applyCanon m s t) r c =
        matVal m s r c + (if t.1 = r ∧ t.2.1 = c then t.2.2 else 0)) ∧
    (∀ i, (i < rowBegin m t.1 ∨ rowBegin m t.1 + rowLen m t.1 ≤ i) →
      (applyCanon m s t).col.getD i 0 = s.col.getD i 0 ∧
      (applyCanon m s t).val.getD i 0 = s.val.getD i 0) := by
  have hcI : (Int.ofNat t.2.1) ∈ allowedColsI m t.1 := List.mem_map_of_mem _ hc
  have hspan := span_in_capacity m hm hr
  have hlen : rowBegin m t.1 + rowLen m t.1 ≤ s.col.length := by
    rw [hs.col_len]; exact hspan
  have hvl : s.val.length = s.col.length := by rw [hs.col_len, hs.val_len]
  have halen : (allowedColsI m t.1).length ≤ rowLen m t.1 :=
    le_of_eq (allowedColsI_length m t.1)
  obtain ⟨hok2, hcl2, hvl2, hsum2, hother2, hout2⟩ :=
    applyCanonAt_spec s (rowBegin m t.1) (rowLen m t.1) (allowedColsI m t.1)
      (Int.ofNat t.2.1) t.2.2 (hs.rows t.1 hr) halen
      (neg_one_not_mem_allowedColsI m t.1) hcI hlen hvl
  refine ⟨⟨hcl2.trans hs.col_len, hvl2.trans hs.val_len, ?_⟩, ?_, hout2⟩
  · intro r hr2
    by_cases hrt : r = t.1
    · rw [hrt]
      exact hok2
    · refine RowOk_congr ?_ (hs.rows r hr2)
      intro i hi1 hi2
      exact hout2 i (span_disjoint m (fun h => hrt h.symm) hi1 hi2)
  · intro r c hr2
    by_cases hrt : t.1 = r
    · by_cases hct : t.2.1 = c
      · rw [if_pos ⟨hrt, hct⟩]
        simp only [matVal, applyCanon]
        rw [← hrt, ← hct]
        exact hsum2
      · rw [if_neg (fun hand => hct hand.2), add_zero]
        simp only [matVal, applyCanon]
        rw [← hrt]
        refine hother2 (Int.ofNat c) ?_
        intro hbad
        exact hct (Int.ofNat.inj hbad).symm
    · rw [if_neg (fun hand => hrt hand.1), add_zero]
      simp only [matVal, applyCanon]
      apply rowSum_congr
      intro i hi1 hi2
      exact hout2 i (span_disjoint m hrt hi1 hi2)

/-- Folding a list of contributions with valid rows and allowed columns
from any invariant-satisfying state: the invariant is preserved, each
matrix entry grows by exactly the total contribution scattered at it,
and the rows never targeted keep their slots bit-for-bit. -/
theorem foldCanon_spec (m : Mesh) (hm : ValidMesh m) :
    ∀ (cs : List Contrib) (s : CsrState), StateOk m s →
      (∀ t ∈ cs, t.1 < m.nbNode ∧ t.2.1 ∈ allowedCols m t.1) →
      StateOk m (cs.foldl (applyCanon m) s) ∧
      (∀ r c, r < m.nbNode →
        matVal m (cs.foldl (applyCanon m) s) r c = matVal m s r c + contribSum cs r c) ∧
      (∀ r, r < m.nbNode → (∀ t ∈ cs, t.1 ≠ r) →
        ∀ i, rowBegin m r ≤ i → i < rowBegin m r + rowLen m r →
          (cs.foldl (applyCanon m) s).col.getD i 0 = s.col.getD i 0 ∧
          (cs.foldl (applyCanon m) s).val.getD i 0 = s.val.getD i 0) := by
  intro cs
  induction cs with
  | nil =>
    intro s hs hok
    refine ⟨hs, ?_, ?_⟩
    · intro r c hr2
      simp [contribSum]
    · intro r hr2 hnone i hi1 hi2
      exact ⟨rfl, rfl⟩
  | cons t cs ih =>
    intro s hs hok
    have ht := hok t (List.mem_cons_self t cs)
    obtain ⟨hsok, hsval, hsout⟩ := applyCanon_spec m hm s hs t ht.1 ht.2
    have htail := ih (applyCanon m s t) hsok (fun u hu => hok u (List.mem_cons_of_mem t hu))
    rw [List.foldl_cons]
    refine ⟨htail.1, ?_, ?_⟩
    · intro r c hr2
      rw [htail.2.1 r c hr2, hsval r c hr2]
      simp only [contribSum, List.map_cons, List.sum_cons]
      ring
    · intro r hr2 hnone i hi1 hi2
      have h1 := htail.2.2 r hr2 (fun u hu => hnone u (List.mem_cons_of_mem t hu)) i hi1 hi2
      have h2 := hsout i (span_disjoint m
        (fun h => hnone t (List.mem_cons_self t cs) h) hi1 hi2)
      exact ⟨h1.1.trans h2.1, h1.2.trans h2.2⟩

/-! ### The initial store -/

theorem initState_stateOk (m : Mesh) (hm : ValidMesh m) : StateOk m (initState m) := by
  refine ⟨by simp [initState], by simp [initState], ?_⟩
  intro r hr
  have hspan := span_in_capacity m hm hr
  refine ⟨0, by omega, fun i hi => absurd hi (Nat.not_lt_zero i), ?_, by simp [claimedCols]⟩
  intro i _ hil
  constructor
  · show (List.replicate (capacityNNZ m) (-1 : Int)).getD (rowBegin m r + i) 0 = -1
    exact getD_replicate _ _ _ _ (by omega)
  · show (List.replicate (capacityNNZ m) (0 : ℚ)).getD (rowBegin m r + i) 0 = 0
    exact getD_replicate _ _ _ _ (by omega)

theorem matVal_init (m : Mesh) (hm : ValidMesh m) (r c : Nat) (hr : r < m.nbNode) :
    matVal m (initState m) r c = 0 := by
  have hspan := span_in_capacity m hm hr
  simp only [matVal, rowSum]
  rw [sum_map_range_congr (g := fun _ => (0 : ℚ)) ?_]
  · simp
  · intro i hi
    have hcol : (List.replicate (capacityNNZ m) (-1 : Int)).getD (rowBegin m r + i) 0 = -1 :=
      getD_replicate _ _ _ _ (by omega)
    have hne : ¬ (initState m).col.getD (rowBegin m r + i) 0 = Int.ofNat c := by
      show ¬ (List.replicate (capacityNNZ m) (-1 : Int)).getD (rowBegin m r + i) 0 = Int.ofNat c
      rw [hcol, Int.ofNat_eq_coe]
      omega
    rw [if_neg hne]

/-! ### The three scatter strategies (translated from their sources) -/

/-- The per-cell contributions of `_assembleCsrBilinearOperatorTRIA3`
(CsrBiliAssembly.hxx): the double loop over the cell's nodes adds
`K_e(n1_index, n2_index)` at `(dof(node1), dof(node2))` when `node1`
is owned. -/
def seqCellContribs (m : Mesh) (C : Nat × Nat × Nat) : List Contrib :=
  (List.range 3).flatMap fun i =>
    (List.range 3).flatMap fun j =>
      if m.own (cellNode C i) then
        [(cellNode C i, cellNode C j, computeElementMatrixTRIA3 m C i j)]
      else []

def seqContribs (m : Mesh) : List Contrib :=
  m.cells.flatMap (seqCellContribs m)

/-- The per-cell contributions of
`_assembleCsrAllGPUBilinearOperatorTRIA3` (CsrGpuBiliAssembly.hxx):
the same double loop but reading `K_e[n1_index * 3 + n2_index]` from
the flat GPU element matrix. -/
def gpuCellContribs (m : Mesh) (C : Nat × Nat × Nat) : List Contrib :=
  (List.range 3).flatMap fun i =>
    (List.range 3).flatMap fun j =>
      if m.own (cellNode C i) then
        [(cellNode C i, cellNode C j,
          (computeElementMatrixTRIA3GPU m C).getD (i * 3 + j) 0)]
      else []

def gpuContribs (m : Mesh) : List Contrib :=
  m.cells.flatMap (gpuCellContribs m)

/-- The `inode_index` computation of
`_assembleBuildLessCsrBilinearOperatorTria3`: compare the node with
`cnc.nodeId(cell, 1)` and `cnc.nodeId(cell, 2)`, defaulting to 0. -/
def blInodeIndex (C : Nat × Nat × Nat) (inode : Nat) : Nat :=
  if inode = cellNode C 1 then 1
  else if inode = cellNode C 2 then 2
  else 0

/-- The value `x` computed by the inner loop of
`_assembleBuildLessCsrBilinearOperatorTria3`:
`x = (sum_{k<2} b_matrix[idx*2+k] * b_matrix[i*2+k]) * area`. -/
def blContribValue (m : Mesh) (C : Nat × Nat × Nat) (idx i : Nat) : ℚ :=
  ((computeCellMatrixGpuTRIA3B m C).getD (idx * 2) 0
      * (computeCellMatrixGpuTRIA3B m C).getD (i * 2) 0
    + (computeCellMatrixGpuTRIA3B m C).getD (idx * 2 + 1) 0
      * (computeCellMatrixGpuTRIA3B m C).getD (i * 2 + 1) 0)
    * computeAreaTriangle3 m C

/-- The contributions one node scatters for one incident cell in
`_assembleBuildLessCsrBilinearOperatorTria3` (BlcsrBiliAssembly.hxx):
`x` written at `(dof(inode), dof(node2))` when `inode` is owned. -/
def blNodeCellContribs (m : Mesh) (inode : Nat) (C : Nat × Nat × Nat) : List Contrib :=
  (List.range 3).flatMap fun i =>
    if m.own inode then
      [(inode, cellNode C i, blContribValue m C (blInodeIndex C inode) i)]
    else []

/-- The node-centric contribution order of the build-less strategy:
every node visits its incident cells. -/
def blContribs (m : Mesh) : List Contrib :=
  (List.range m.nbNode).flatMap fun inode =>
    (nodeCells m inode).flatMap (blNodeCellContribs m inode)

/-- The coordinate insertions of `_buildMatrixCsr` (CsrBiliAssembly.hxx):
for each node the diagonal `(dof, dof)` and then, per incident face, the
column produced by the source's conditional
`face.nodeId(0) ? dofId(face.nodeId(1), 0) : dofId(face.nodeId(1), 0)`
whose two branches are identical. -/
def buildMatrixCsrInsertions (m : Mesh) : List (Nat × Nat) :=
  (List.range m.nbNode).flatMap fun n =>
    (n, n) :: (nodeFaces m n).map (fun f => (n, if f.1 ≠ 0 then f.2 else f.2))

/-- The coordinate insertions of `_buildMatrixGPU` (FemModule.cc, COO
path): the diagonal and, per incident face, the face's other endpoint
selected by comparing `face.nodeId(0)` with the node. -/
def buildMatrixGPUInsertions (m : Mesh) : List (Nat × Nat) :=
  (List.range m.nbNode).flatMap fun n =>
    (n, n) :: (nodeFaces m n).map
      (fun f => if f.1 = n then (n, f.2) else (n, f.1))

/-- `begin = row_csr[row]` as the scatter kernels read it. -/
def srcRowBegin (m : Mesh) (row : Nat) : Nat :=
  (matrixRowArray m).getD row 0

/-- `end = (row == row_csr_size - 1) ? col_csr_size : row_csr[row + 1]`
as the scatter kernels compute it. -/
def srcRowEnd (m : Mesh) (colSize row : Nat) : Nat :=
  if row = (matrixRowArray m).length - 1 then colSize
  else (matrixRowArray m).getD (row + 1) 0

def pairToState (p : List Int × List ℚ) : CsrState :=
  ⟨p.1, p.2⟩

/-- One scatter-add of the build-less strategy: the probe of
`_addValueToGlobalMatrixTria3Gpu` over the source-computed span. -/
def applyBl (m : Mesh) (s : CsrState) (t : Contrib) : CsrState :=
  pairToState (addValueToGlobalMatrixTria3Gpu (srcRowBegin m t.1)
    (srcRowEnd m s.col.length t.1) (Int.ofNat t.2.1) s.col s.val t.2.2)

/-- One scatter-add of the all-GPU CSR strategy: the inlined probe of
`_assembleCsrAllGPUBilinearOperatorTRIA3` over the source-computed
span. -/
def applyGpu (m : Mesh) (s : CsrState) (t : Contrib) : CsrState :=
  pairToState (csrGpuProbeAdd (srcRowBegin m t.1)
    (srcRowEnd m s.col.length t.1) (Int.ofNat t.2.1) s.col s.val t.2.2)

/-- One `matrixAddValue` of the sequential CSR assembly on the
spec-modelled store. -/
def applySeq (m : Mesh) (s : CsrState) (t : Contrib) : CsrState :=
  pairToState (csrMatrixAddValue (rowBegin m t.1) (rowBegin m t.1 + rowLen m t.1)
    (Int.ofNat t.2.1) s.col s.val t.2.2)

/-- One `setCoordinates` of `_buildMatrixCsr` on the spec-modelled
store. -/
def applySetCoord (m : Mesh) (s : CsrState) (t : Nat × Nat) : CsrState :=
  ⟨csrSetCoordinates (rowBegin m t.1) (rowBegin m t.1 + rowLen m t.1)
    (Int.ofNat t.2) s.col, s.val⟩

/-- The store built by `_buildMatrixCsr`. -/
def buildMatrixCsrState (m : Mesh) : CsrState :=
  (buildMatrixCsrInsertions m).foldl (applySetCoord m) (initState m)

/-- The fully assembled store of the sequential pre-built CSR strategy
(`_assembleCsrBilinearOperatorTRIA3`). -/
def assembleSeq (m : Mesh) : CsrState :=
  (seqContribs m).foldl (applySeq m) (buildMatrixCsrState m)

/-- The fully assembled store of the all-GPU CSR strategy, with its
device-parallel cell loop sequentialised
(`_assembleCsrAllGPUBilinearOperatorTRIA3` after
`_buildMatrixGpuBuildLessCsr`). -/
def assembleGpu (m : Mesh) : CsrState :=
  (gpuContribs m).foldl (applyGpu m) (initState m)

/-- The fully assembled store of the build-less strategy, with its
device-parallel node loop sequentialised
(`_assembleBuildLessCsrBilinearOperatorTria3`). -/
def assembleBl (m : Mesh) : CsrState :=
  (blContribs m).foldl (applyBl m) (initState m)

/-! ### Reduction of each strategy's probe to the canonical one -/

theorem getD_map_range (n : Nat) (f : Nat → Nat) {r : Nat} (h : r < n) :
    ((List.range n).map f).getD r 0 = f r := by
  simp [List.getD, List.getElem?_map, List.getElem?_range, h]

theorem srcRowBegin_eq (m : Mesh) {r : Nat} (hr : r < m.nbNode) :
    srcRowBegin m r = rowBegin m r := by
  rw [srcRowBegin, matrixRowArray]
  exact getD_map_range m.nbNode (rowBegin m) hr

theorem srcRowEnd_eq (m : Mesh) (hm : ValidMesh m) {r : Nat} (hr : r < m.nbNode)
    {colSize : Nat} (hcs : colSize = capacityNNZ m) :
    srcRowEnd m colSize r = rowBegin m r + rowLen m r := by
  have hlen : (matrixRowArray m).length = m.nbNode := by
    simp [matrixRowArray]
  rw [srcRowEnd]
  by_cases hlast : r = (matrixRowArray m).length - 1
  · rw [if_pos hlast, hcs, ← rowBegin_total m hm]
    have hnn : m.nbNode = r + 1 := by omega
    rw [hnn, rowBegin_succ]
  · rw [if_neg hlast]
    have hr2 : r + 1 < m.nbNode := by omega
    rw [matrixRowArray, getD_map_range m.nbNode (rowBegin m) hr2, rowBegin_succ]

theorem ofNat_ne_neg_one (c : Nat) : (Int.ofNat c) ≠ -1 := by
  rw [Int.ofNat_eq_coe]
  omega

theorem applyBl_eq_applyCanon (m : Mesh) (hm : ValidMesh m) (s : CsrState)
    (hcl : s.col.length = capacityNNZ m) (t : Contrib) (hr : t.1 < m.nbNode) :
    applyBl m s t = applyCanon m s t := by
  rw [applyBl, srcRowBegin_eq m hr, srcRowEnd_eq m hm hr hcl]
  rw [addValueToGlobalMatrixTria3Gpu_eq_probe (Int.ofNat t.2.1) t.2.2
    (ofNat_ne_neg_one t.2.1)
    (rowBegin m t.1 + rowLen m t.1 - rowBegin m t.1) (rowBegin m t.1)
    (rowBegin m t.1 + rowLen m t.1) rfl s.col s.val]
  rfl

theorem applyGpu_eq_applyCanon (m : Mesh) (hm : ValidMesh m) (s : CsrState)
    (hcl : s.col.length = capacityNNZ m) (t : Contrib) (hr : t.1 < m.nbNode) :
    applyGpu m s t = applyCanon m s t := by
  rw [applyGpu, srcRowBegin_eq m hr, srcRowEnd_eq m hm hr hcl]
  rw [csrGpuProbeAdd_eq_probe (Int.ofNat t.2.1) t.2.2
    (rowBegin m t.1 + rowLen m t.1 - rowBegin m t.1) (rowBegin m t.1)
    (rowBegin m t.1 + rowLen m t.1) rfl s.col s.val]
  rfl

theorem applySeq_eq_applyCanon (m : Mesh) : applySeq m = applyCanon m := rfl

theorem probeFind_col (col : List Int) (c : Int) :
    ∀ (n b e i : Nat) (fl : Bool), e - b = n →
      probeFind col b e c = some (i, fl) →
      col.getD i 0 = (if fl then c else -1) := by
  intro n
  induction n using Nat.strong_induction_on with
  | _ n ih =>
    intro b e i fl hn hp
    rw [probeFind] at hp
    by_cases hbe : b < e
    · rw [if_pos hbe] at hp
      by_cases hm : col.getD b 0 = c
      · rw [if_pos hm] at hp
        have h1 : b = i := congrArg (fun o => (o.getD (0, false)).1) hp
        have h2 : true = fl := congrArg (fun o => (o.getD (0, false)).2) hp
        rw [← h1, ← h2, if_pos rfl]
        exact hm
      · rw [if_neg hm] at hp
        by_cases hs : col.getD b 0 = -1
        · rw [if_pos hs] at hp
          have h1 : b = i := congrArg (fun o => (o.getD (0, false)).1) hp
          have h2 : false = fl := congrArg (fun o => (o.getD (0, false)).2) hp
          rw [← h1, ← h2, if_neg (by simp)]
          exact hs
        · rw [if_neg hs] at hp
          exact ih (e - (b + 1)) (by omega) (b + 1) e i fl rfl hp
    · rw [if_neg hbe] at hp
      exact absurd hp (by simp)

/-- `setCoordinates` coincides with the canonical claim-or-match at
value 0 on any invariant-satisfying store. -/
theorem applySetCoord_eq_applyCanon (m : Mesh) (hm : ValidMesh m) (s : CsrState)
    (hs : StateOk m s) (t : Nat × Nat) (hr : t.1 < m.nbNode) :
    applySetCoord m s t = applyCanon m s (t.1, t.2, 0) := by
  have hspan := span_in_capacity m hm hr
  rw [applySetCoord, applyCanon, applyCanonAt, csrSetCoordinates]
  rcases hfind : probeFind s.col (rowBegin m t.1)
      (rowBegin m t.1 + rowLen m t.1) (Int.ofNat t.2) with _ | ⟨i, fl⟩
  · rfl
  · have hbounds := probeFind_bounds s.col (Int.ofNat t.2)
      (rowBegin m t.1 + rowLen m t.1 - rowBegin m t.1) (rowBegin m t.1)
      (rowBegin m t.1 + rowLen m t.1) i fl rfl hfind
    have hiv : i < s.val.length := by
      rw [hs.val_len]; omega
    cases fl with
    | true =>
      show (⟨s.col, s.val⟩ : CsrState) = ⟨s.col, s.val.set i (s.val.getD i 0 + 0)⟩
      rw [add_zero, set_getD_self s.val i 0 hiv]
    | false =>
      show (⟨s.col.set i (Int.ofNat t.2), s.val⟩ : CsrState) =
        ⟨s.col.set i (Int.ofNat t.2), s.val.set i 0⟩
      have hcolv := probeFind_col s.col (Int.ofNat t.2)
        (rowBegin m t.1 + rowLen m t.1 - rowBegin m t.1) (rowBegin m t.1)
        (rowBegin m t.1 + rowLen m t.1) i false rfl hfind
      rw [if_neg (by simp)] at hcolv
      obtain ⟨k, hk, hclaim, hsent, _⟩ := hs.rows t.1 hr
      have hoff : i = rowBegin m t.1 + (i - rowBegin m t.1) := by omega
      have hko : k ≤ i - rowBegin m t.1 := by
        by_contra hlt
        have hmem := hclaim (i - rowBegin m t.1) (by omega)
        rw [← hoff] at hmem
        rw [hcolv] at hmem
        exact neg_one_not_mem_allowedColsI m t.1 hmem
      have hv0 : s.val.getD i 0 = 0 := by
        have := (hsent (i - rowBegin m t.1) hko (by omega)).2
        rw [← hoff] at this
        exact this
      rw [← hv0, set_getD_self s.val i 0 hiv]

/-! ### Validity of the contribution lists -/

theorem mem_guard {α : Type} {a x : α} {c : Prop} [Decidable c] :
    a ∈ (if c then [x] else ([] : List α)) ↔ c ∧ a = x := by
  by_cases h : c <;> simp [h]

theorem mem_faceNbrs_of_sameEdge (m : Mesh) {f : Nat × Nat} (hf : f ∈ m.faces)
    {a b2 : Nat} (hedge : sameEdge f (a, b2)) : b2 ∈ faceNbrs m a := by
  have hedge2 : (f.1 = a ∧ f.2 = b2) ∨ (f.1 = b2 ∧ f.2 = a) := hedge
  rw [faceNbrs]
  have hinc : incident a f = true := by
    rw [incident, Bool.or_eq_true, decide_eq_true_eq, decide_eq_true_eq]
    rcases hedge2 with ⟨h1, h2⟩ | ⟨h1, h2⟩
    · left; exact h1
    · right; exact h2
  have hmem : f ∈ nodeFaces m a := by
    rw [nodeFaces, List.mem_filter]
    exact ⟨hf, hinc⟩
  refine List.mem_map.mpr ⟨f, hmem, ?_⟩
  rcases hedge2 with ⟨h1, h2⟩ | ⟨h1, h2⟩
  · rw [if_pos h1]
    exact h2
  · by_cases hfa : f.1 = a
    · rw [if_pos hfa, h2, ← h1, hfa]
    · rw [if_neg hfa]
      exact h1

theorem cellNode_mem_allowed (m : Mesh) (hm : ValidMesh m) {C : Nat × Nat × Nat}
    (hC : C ∈ m.cells) {i j : Nat} (hi : i < 3) (hj : j < 3) :
    cellNode C j ∈ allowedCols m (cellNode C i) := by
  by_cases heq : cellNode C j = cellNode C i
  · rw [heq, allowedCols]
    exact List.mem_cons_self _ _
  · have hij : i ≠ j := fun h => heq (by rw [h])
    obtain ⟨f, hf, hedge⟩ := hm.cell_edge_face C hC i hi j hj hij
    rw [allowedCols]
    exact List.mem_cons_of_mem _ (mem_faceNbrs_of_sameEdge m hf hedge)

theorem mem_cellNodesList {C : Nat × Nat × Nat} {v : Nat} :
    v ∈ cellNodesList C ↔ ∃ p, p < 3 ∧ cellNode C p = v := by
  simp only [cellNodesList, List.mem_cons, List.not_mem_nil, or_false]
  constructor
  · intro h
    rcases h with h | h | h
    · exact ⟨0, by omega, h.symm⟩
    · exact ⟨1, by omega, h.symm⟩
    · exact ⟨2, by omega, h.symm⟩
  · rintro ⟨p, hp, hv⟩
    interval_cases p
    · left; exact hv.symm
    · right; left; exact hv.symm
    · right; right; exact hv.symm

theorem seqContribs_valid (m : Mesh) (hm : ValidMesh m) :
    ∀ t ∈ seqContribs m, t.1 < m.nbNode ∧ t.2.1 ∈ allowedCols m t.1 := by
  intro t ht
  rw [seqContribs, List.mem_flatMap] at ht
  obtain ⟨C, hC, ht⟩ := ht
  rw [seqCellContribs, List.mem_flatMap] at ht
  obtain ⟨i, hi, ht⟩ := ht
  rw [List.mem_flatMap] at ht
  obtain ⟨j, hj, ht⟩ := ht
  rw [List.mem_range] at hi hj
  rw [mem_guard] at ht
  obtain ⟨hown, hteq⟩ := ht
  subst hteq
  exact ⟨hm.cell_lt C hC i hi, cellNode_mem_allowed m hm hC hi hj⟩

theorem gpuContribs_valid (m : Mesh) (hm : ValidMesh m) :
    ∀ t ∈ gpuContribs m, t.1 < m.nbNode ∧ t.2.1 ∈ allowedCols m t.1 := by
  intro t ht
  rw [gpuContribs, List.mem_flatMap] at ht
  obtain ⟨C, hC, ht⟩ := ht
  rw [gpuCellContribs, List.mem_flatMap] at ht
  obtain ⟨i, hi, ht⟩ := ht
  rw [List.mem_flatMap] at ht
  obtain ⟨j, hj, ht⟩ := ht
  rw [List.mem_range] at hi hj
  rw [mem_guard] at ht
  obtain ⟨hown, hteq⟩ := ht
  subst hteq
  exact ⟨hm.cell_lt C hC i hi, cellNode_mem_allowed m hm hC hi hj⟩

theorem blContribs_valid (m : Mesh) (hm : ValidMesh m) :
    ∀ t ∈ blContribs m, t.1 < m.nbNode ∧ t.2.1 ∈ allowedCols m t.1 := by
  intro t ht
  rw [blContribs, List.mem_flatMap] at ht
  obtain ⟨inode, hn, ht⟩ := ht
  rw [List.mem_range] at hn
  rw [List.mem_flatMap] at ht
  obtain ⟨C, hC, ht⟩ := ht
  rw [nodeCells, List.mem_filter] at hC
  have hCin : inode ∈ cellNodesList C := of_decide_eq_true hC.2
  rw [blNodeCellContribs, List.mem_flatMap] at ht
  obtain ⟨i, hi, ht⟩ := ht
  rw [List.mem_range] at hi
  rw [mem_guard] at ht
  obtain ⟨hown, hteq⟩ := ht
  subst hteq
  refine ⟨hn, ?_⟩
  rw [mem_cellNodesList] at hCin
  obtain ⟨p, hp, hpv⟩ := hCin
  exact hpv ▸ cellNode_mem_allowed m hm hC.1 hp hi

theorem insertions_valid (m : Mesh) (hm : ValidMesh m) :
    ∀ t ∈ buildMatrixCsrInsertions m, t.1 < m.nbNode ∧ t.2 ∈ allowedCols m t.1 := by
  intro t ht
  rw [buildMatrixCsrInsertions, List.mem_flatMap] at ht
  obtain ⟨n, hn, ht⟩ := ht
  rw [List.mem_range] at hn
  rcases List.mem_cons.mp ht with h | h
  · subst h
    exact ⟨hn, List.mem_cons_self _ _⟩
  · rw [List.mem_map] at h
    obtain ⟨f, hf, hval⟩ := h
    have hval2 : t = (n, f.2) := by
      rw [← hval, ite_self]
    subst hval2
    refine ⟨hn, ?_⟩
    have hinc : incident n f = true := (List.mem_filter.mp (by rw [nodeFaces] at hf; exact hf)).2
    rw [incident, Bool.or_eq_true, decide_eq_true_eq, decide_eq_true_eq] at hinc
    rcases hinc with h1 | h2
    · rw [allowedCols]
      apply List.mem_cons_of_mem
      refine List.mem_map.mpr ⟨f, hf, ?_⟩
      rw [if_pos h1]
    · rw [h2, allowedCols]
      exact List.mem_cons_self _ _

theorem insertionsZ_valid (m : Mesh) (hm : ValidMesh m) :
    ∀ t ∈ (buildMatrixCsrInsertions m).map (fun u => ((u.1, u.2, (0 : ℚ)) : Contrib)),
      t.1 < m.nbNode ∧ t.2.1 ∈ allowedCols m t.1 := by
  intro t ht
  rw [List.mem_map] at ht
  obtain ⟨u, hu, hv⟩ := ht
  subst hv
  exact insertions_valid m hm u hu

/-! ### Each strategy folds like the canonical probe -/

theorem foldBl_eq (m : Mesh) (hm : ValidMesh m) :
    ∀ (cs : List Contrib) (s : CsrState), StateOk m s →
      (∀ t ∈ cs, t.1 < m.nbNode ∧ t.2.1 ∈ allowedCols m t.1) →
      cs.foldl (applyBl m) s = cs.foldl (applyCanon m) s := by
  intro cs
  induction cs with
  | nil => intro s _ _; rfl
  | cons t cs ih =>
    intro s hs hok
    have ht := hok t (List.mem_cons_self t cs)
    rw [List.foldl_cons, List.foldl_cons,
      applyBl_eq_applyCanon m hm s hs.col_len t ht.1]
    exact ih (applyCanon m s t) (applyCanon_spec m hm s hs t ht.1 ht.2).1
      (fun u hu => hok u (List.mem_cons_of_mem t hu))

theorem foldGpu_eq (m : Mesh) (hm : ValidMesh m) :
    ∀ (cs : List Contrib) (s : CsrState), StateOk m s →
      (∀ t ∈ cs, t.1 < m.nbNode ∧ t.2.1 ∈ allowedCols m t.1) →
      cs.foldl (applyGpu m) s = cs.foldl (applyCanon m) s := by
  intro cs
  induction cs with
  | nil => intro s _ _; rfl
  | cons t cs ih =>
    intro s hs hok
    have ht := hok t (List.mem_cons_self t cs)
    rw [List.foldl_cons, List.foldl_cons,
      applyGpu_eq_applyCanon m hm s hs.col_len t ht.1]
    exact ih (applyCanon m s t) (applyCanon_spec m hm s hs t ht.1 ht.2).1
      (fun u hu => hok u (List.mem_cons_of_mem t hu))

theorem foldSetCoord_eq (m : Mesh) (hm : ValidMesh m) :
    ∀ (ins : List (Nat × Nat)) (s : CsrState), StateOk m s →
      (∀ t ∈ ins, t.1 < m.nbNode ∧ t.2 ∈ allowedCols m t.1) →
      ins.foldl (applySetCoord m) s =
        (ins.map (fun u => ((u.1, u.2, (0 : ℚ)) : Contrib))).foldl (applyCanon m) s := by
  intro ins
  induction ins with
  | nil => intro s _ _; rfl
  | cons t ins ih =>
    intro s hs hok
    have ht := hok t (List.mem_cons_self t ins)
    rw [List.map_cons, List.foldl_cons, List.foldl_cons,
      applySetCoord_eq_applyCanon m hm s hs t ht.1]
    exact ih (applyCanon m s (t.1, t.2, 0))
      (applyCanon_spec m hm s hs (t.1, t.2, 0) ht.1 ht.2).1
      (fun u hu => hok u (List.mem_cons_of_mem t hu))

theorem contribSum_zero (cs : List Contrib) (h : ∀ t ∈ cs, t.2.2 = 0) (r c : Nat) :
    contribSum cs r c = 0 := by
  rw [contribSum]
  apply List.sum_eq_zero
  intro q hq
  rw [List.mem_map] at hq
  obtain ⟨t, ht, hv⟩ := hq
  rw [← hv]
  by_cases hc : t.1 = r ∧ t.2.1 = c
  · rw [if_pos hc]
    exact h t ht
  · rw [if_neg hc]

/-! ### The assembled matrix of each strategy -/

theorem buildState_facts (m : Mesh) (hm : ValidMesh m) :
    StateOk m (buildMatrixCsrState m) ∧
    (∀ r c, r < m.nbNode → matVal m (buildMatrixCsrState m) r c = 0) := by
  rw [buildMatrixCsrState,
    foldSetCoord_eq m hm _ _ (initState_stateOk m hm) (insertions_valid m hm)]
  have h := foldCanon_spec m hm
    ((buildMatrixCsrInsertions m).map (fun u => ((u.1, u.2, (0 : ℚ)) : Contrib)))
    (initState m) (initState_stateOk m hm) (insertionsZ_valid m hm)
  refine ⟨h.1, ?_⟩
  intro r c hr
  rw [h.2.1 r c hr, matVal_init m hm r c hr, contribSum_zero _ ?_ r c]
  · ring
  · intro t ht
    rw [List.mem_map] at ht
    obtain ⟨u, hu, hv⟩ := ht
    rw [← hv]

theorem assembleSeq_matVal (m : Mesh) (hm : ValidMesh m) {r c : Nat} (hr : r < m.nbNode) :
    matVal m (assembleSeq m) r c = contribSum (seqContribs m) r c := by
  rw [assembleSeq, applySeq_eq_applyCanon m]
  have hb := buildState_facts m hm
  rw [(foldCanon_spec m hm (seqContribs m) (buildMatrixCsrState m) hb.1
    (seqContribs_valid m hm)).2.1 r c hr]
  rw [hb.2 r c hr, zero_add]

theorem assembleGpu_matVal (m : Mesh) (hm : ValidMesh m) {r c : Nat} (hr : r < m.nbNode) :
    matVal m (assembleGpu m) r c = contribSum (gpuContribs m) r c := by
  rw [assembleGpu, foldGpu_eq m hm (gpuContribs m) (initState m) (initState_stateOk m hm)
    (gpuContribs_valid m hm)]
  rw [(foldCanon_spec m hm (gpuContribs m) (initState m) (initState_stateOk m hm)
    (gpuContribs_valid m hm)).2.1 r c hr]
  rw [matVal_init m hm r c hr, zero_add]

theorem assembleBl_matVal (m : Mesh) (hm : ValidMesh m) {r c : Nat} (hr : r < m.nbNode) :
    matVal m (assembleBl m) r c = contribSum (blContribs m) r c := by
  rw [assembleBl, foldBl_eq m hm (blContribs m) (initState m) (initState_stateOk m hm)
    (blContribs_valid m hm)]
  rw [(foldCanon_spec m hm (blContribs m) (initState m) (initState_stateOk m hm)
    (blContribs_valid m hm)).2.1 r c hr]
  rw [matVal_init m hm r c hr, zero_add]

/-! ### The three strategies scatter the same totals -/

/-- The CPU and GPU triangle kernels compute the same element matrix. -/
theorem computeElementMatrixTRIA3GPU_eq (m : Mesh) (C : Nat × Nat × Nat) :
    computeElementMatrixTRIA3GPU m C =
      [computeElementMatrixTRIA3 m C 0 0, computeElementMatrixTRIA3 m C 0 1,
       computeElementMatrixTRIA3 m C 0 2, computeElementMatrixTRIA3 m C 1 0,
       computeElementMatrixTRIA3 m C 1 1, computeElementMatrixTRIA3 m C 1 2,
       computeElementMatrixTRIA3 m C 2 0, computeElementMatrixTRIA3 m C 2 1,
       computeElementMatrixTRIA3 m C 2 2] := rfl

/-- The per-node recomputation of the build-less kernel agrees with the
CPU element matrix entry. -/
theorem blContribValue_eq_Ke (m : Mesh) (C : Nat × Nat × Nat) {idx i : Nat}
    (hidx : idx < 3) (hi : i < 3) :
    blContribValue m C idx i = computeElementMatrixTRIA3 m C idx i := by
  interval_cases idx <;> interval_cases i <;> rfl

/-- The sequential and the all-GPU cell loops build the same
contribution list. -/
theorem gpuContribs_eq (m : Mesh) : gpuContribs m = seqContribs m := rfl

theorem contribSum_append (l1 l2 : List Contrib) (r c : Nat) :
    contribSum (l1 ++ l2) r c = contribSum l1 r c + contribSum l2 r c := by
  simp [contribSum]

theorem contribSum_flatMap {α : Type} (l : List α) (f : α → List Contrib) (r c : Nat) :
    contribSum (l.flatMap f) r c = (l.map (fun a => contribSum (f a) r c)).sum := by
  induction l with
  | nil => simp [contribSum]
  | cons a l ih =>
    rw [List.flatMap_cons, contribSum_append, List.map_cons, List.sum_cons, ih]

theorem contribSum_guard3 (b : Prop) [Decidable b] (a1 a2 : Nat) (v : ℚ) (r c : Nat) :
    contribSum (if b then [(a1, a2, v)] else []) r c =
      if b then (if a1 = r ∧ a2 = c then v else 0) else 0 := by
  by_cases h : b <;> simp [contribSum, h]

theorem sum_map_range_single {n r : Nat} (hr : r < n) (g : Nat → ℚ)
    (h : ∀ i, i < n → i ≠ r → g i = 0) :
    ((List.range n).map g).sum = g r := by
  induction n with
  | zero => omega
  | succ k ih =>
    rw [List.range_succ, List.map_append, List.sum_append]
    by_cases hk : r = k
    · subst hk
      rw [sum_map_range_congr (g := fun _ => (0 : ℚ)) (fun i hi => h i (by omega) (by omega))]
      simp
    · rw [ih (by omega) (fun i hi hir => h i (by omega) hir)]
      simp [h k (by omega) (fun hh => hk hh.symm)]

theorem sum_map_filter {α : Type} (l : List α) (p : α → Bool) (g : α → ℚ) :
    ((l.filter p).map g).sum = (l.map (fun a => if p a = true then g a else 0)).sum := by
  induction l with
  | nil => rfl
  | cons a l ih =>
    rw [List.filter_cons]
    by_cases h : p a = true
    · rw [if_pos h, List.map_cons, List.sum_cons, List.map_cons, List.sum_cons, ih, if_pos h]
    · rw [if_neg h, List.map_cons, List.sum_cons, ih, if_neg h, zero_add]

/-- Expansion of a cell's contribution total in the sequential
strategy. -/
theorem seqCell_sum (m : Mesh) (C : Nat × Nat × Nat) (r c : Nat) :
    contribSum (seqCellContribs m C) r c =
      ((List.range 3).map (fun i => ((List.range 3).map (fun j =>
        if m.own (cellNode C i) = true then
          (if cellNode C i = r ∧ cellNode C j = c then
            computeElementMatrixTRIA3 m C i j else 0)
        else 0)).sum)).sum := by
  rw [seqCellContribs, contribSum_flatMap]
  congr 1
  apply List.map_congr_left
  intro i hi
  rw [contribSum_flatMap]
  congr 1
  apply List.map_congr_left
  intro j hj
  rw [contribSum_guard3]

/-- Expansion of the contribution total one node scatters for one cell
in the build-less strategy. -/
theorem blCell_sum (m : Mesh) (inode : Nat) (C : Nat × Nat × Nat) (r c : Nat) :
    contribSum (blNodeCellContribs m inode C) r c =
      ((List.range 3).map (fun i =>
        if m.own inode = true then
          (if inode = r ∧ cellNode C i = c then
            blContribValue m C (blInodeIndex C inode) i else 0)
        else 0)).sum := by
  rw [blNodeCellContribs, contribSum_flatMap]
  congr 1
  apply List.map_congr_left
  intro i hi
  rw [contribSum_guard3]

theorem blNodeCell_sum_ne (m : Mesh) (inode : Nat) (C : Nat × Nat × Nat) (r c : Nat)
    (hne : inode ≠ r) :
    contribSum (blNodeCellContribs m inode C) r c = 0 := by
  rw [blCell_sum]
  apply List.sum_eq_zero
  intro q hq
  rw [List.mem_map] at hq
  obtain ⟨i, hi, hv⟩ := hq
  rw [← hv]
  by_cases h : m.own inode = true
  · rw [if_pos h, if_neg (fun hand => hne hand.1)]
  · rw [if_neg h]

theorem seqCell_sum_notmem (m : Mesh) (C : Nat × Nat × Nat) (r c : Nat)
    (hnm : r ∉ cellNodesList C) :
    contribSum (seqCellContribs m C) r c = 0 := by
  rw [seqCell_sum]
  apply List.sum_eq_zero
  intro q hq
  rw [List.mem_map] at hq
  obtain ⟨i, hi, hv⟩ := hq
  rw [List.mem_range] at hi
  rw [← hv]
  apply List.sum_eq_zero
  intro q2 hq2
  rw [List.mem_map] at hq2
  obtain ⟨j, hj, hv2⟩ := hq2
  rw [← hv2]
  by_cases h : m.own (cellNode C i) = true
  · rw [if_pos h, if_neg]
    intro hand
    exact hnm (mem_cellNodesList.mpr ⟨i, hi, hand.1⟩)
  · rw [if_neg h]

theorem cell_distinct_facts (m : Mesh) (hm : ValidMesh m) {C : Nat × Nat × Nat}
    (hC : C ∈ m.cells) : C.1 ≠ C.2.1 ∧ C.1 ≠ C.2.2 ∧ C.2.1 ≠ C.2.2 := by
  have hnd := hm.cell_distinct C hC
  rw [cellNodesList] at hnd
  simp only [List.nodup_cons, List.mem_cons, List.not_mem_nil, or_false,
    List.nodup_nil, and_true] at hnd
  tauto

theorem blInodeIndex_eq (m : Mesh) (hm : ValidMesh m) {C : Nat × Nat × Nat}
    (hC : C ∈ m.cells) {p r : Nat} (hp : p < 3) (hpv : cellNode C p = r) :
    blInodeIndex C r = p := by
  obtain ⟨d12, d13, d23⟩ := cell_distinct_facts m hm hC
  rw [blInodeIndex]
  interval_cases p
  · have hn1 : ¬ r = cellNode C 1 := fun hbad => d12 (hpv.trans hbad)
    have hn2 : ¬ r = cellNode C 2 := fun hbad => d13 (hpv.trans hbad)
    rw [if_neg hn1, if_neg hn2]
  · rw [if_pos hpv.symm]
  · have hn1 : ¬ r = cellNode C 1 := fun hbad => d23 (hbad.symm.trans hpv.symm)
    rw [if_neg hn1, if_pos hpv.symm]

theorem cellNode_inj (m : Mesh) (hm : ValidMesh m) {C : Nat × Nat × Nat}
    (hC : C ∈ m.cells) {i p : Nat} (hi : i < 3) (hp : p < 3)
    (hv : cellNode C i = cellNode C p) : i = p := by
  obtain ⟨d12, d13, d23⟩ := cell_distinct_facts m hm hC
  interval_cases i <;> interval_cases p <;>
    first
      | rfl
      | exact absurd hv d12
      | exact absurd hv d13
      | exact absurd hv d23
      | exact absurd hv.symm d12
      | exact absurd hv.symm d13
      | exact absurd hv.symm d23

/-- For a cell containing row node `r`, the node-centric recomputation
scatters exactly the same total as the cell-centric double loop. -/
theorem blCell_sum_eq_seqCell (m : Mesh) (hm : ValidMesh m) {C : Nat × Nat × Nat}
    (hC : C ∈ m.cells) {r p : Nat} (hp : p < 3) (hpv : cellNode C p = r) (c : Nat) :
    contribSum (blNodeCellContribs m r C) r c = contribSum (seqCellContribs m C) r c := by
  rw [blCell_sum, seqCell_sum]
  have hidx : blInodeIndex C r = p := blInodeIndex_eq m hm hC hp hpv
  rw [sum_map_range_single hp
    (fun i => ((List.range 3).map (fun j =>
      if m.own (cellNode C i) = true then
        (if cellNode C i = r ∧ cellNode C j = c then
          computeElementMatrixTRIA3 m C i j else 0)
      else 0)).sum) ?_]
  · apply sum_map_range_congr
    intro i hi
    rw [hidx, blContribValue_eq_Ke m C hp hi, hpv]
  · intro i hi3 hne
    apply List.sum_eq_zero
    intro q hq
    rw [List.mem_map] at hq
    obtain ⟨j, hj, hv⟩ := hq
    rw [← hv]
    by_cases hown : m.own (cellNode C i) = true
    · rw [if_pos hown, if_neg]
      intro hand
      exact hne (cellNode_inj m hm hC hi3 hp (hand.1.trans hpv.symm))
    · rw [if_neg hown]

/-- The node-centric build-less iteration scatters exactly the same
totals as the cell-centric iteration. -/
theorem blContribSum_eq_seq (m : Mesh) (hm : ValidMesh m) {r : Nat} (hr : r < m.nbNode)
    (c : Nat) :
    contribSum (blContribs m) r c = contribSum (seqContribs m) r c := by
  rw [blContribs, contribSum_flatMap, seqContribs, contribSum_flatMap]
  rw [sum_map_range_single hr
    (fun inode => contribSum ((nodeCells m inode).flatMap (blNodeCellContribs m inode)) r c) ?_]
  · rw [contribSum_flatMap, nodeCells, sum_map_filter]
    congr 1
    apply List.map_congr_left
    intro C hC
    by_cases hmem : decide (r ∈ cellNodesList C) = true
    · rw [if_pos hmem]
      have hmem2 : r ∈ cellNodesList C := of_decide_eq_true hmem
      rw [mem_cellNodesList] at hmem2
      obtain ⟨p, hp, hpv⟩ := hmem2
      exact blCell_sum_eq_seqCell m hm hC hp hpv c
    · rw [if_neg hmem]
      have hnm : r ∉ cellNodesList C := fun h => hmem (decide_eq_true h)
      exact (seqCell_sum_notmem m C r c hnm).symm
  · intro inode hlt hne
    show contribSum ((nodeCells m inode).flatMap (blNodeCellContribs m inode)) r c = 0
    rw [contribSum_flatMap]
    apply List.sum_eq_zero
    intro q hq
    rw [List.mem_map] at hq
    obtain ⟨C, hC, hv⟩ := hq
    rw [← hv]
    exact blNodeCell_sum_ne m inode C r c hne

/-! ### Concrete meshes used as witnesses -/

/-- The single right triangle with nodes (0,0), (1,0), (0,1). -/
def singleTriMesh : Mesh where
  nbNode := 3
  faces := [(0, 1), (1, 2), (2, 0)]
  cells := [(0, 1, 2)]
  coord := fun n => if n = 0 then (0, 0) else if n = 1 then (1, 0) else (0, 1)
  own := fun _ => true

/-- The same right triangle with node 2 a non-owned (ghost) node. -/
def ghostTriMesh : Mesh where
  nbNode := 3
  faces := [(0, 1), (1, 2), (2, 0)]
  cells := [(0, 1, 2)]
  coord := fun n => if n = 0 then (0, 0) else if n = 1 then (1, 0) else (0, 1)
  own := fun n => n ≠ 2

/-- Two triangles sharing the edge (1,2). -/
def twoTriMesh : Mesh where
  nbNode := 4
  faces := [(0, 1), (1, 2), (2, 0), (1, 3), (3, 2)]
  cells := [(0, 1, 2), (1, 3, 2)]
  coord := fun n =>
    if n = 0 then (0, 0) else if n = 1 then (1, 0) else if n = 2 then (0, 1) else (1, 1)
  own := fun _ => true

theorem singleTriMesh_valid : ValidMesh singleTriMesh :=
  ⟨by decide, by decide, by decide, by decide, by decide, by decide⟩

theorem ghostTriMesh_valid : ValidMesh ghostTriMesh :=
  ⟨by decide, by decide, by decide, by decide, by decide, by decide⟩

theorem twoTriMesh_valid : ValidMesh twoTriMesh :=
  ⟨by decide, by decide, by decide, by decide, by decide, by decide⟩

/-! ### Claim C2 -/

/-- C2: for every valid mesh, the three scatter strategies — sequential
pre-built CSR insertion (`_assembleCsrBilinearOperatorTRIA3`), the
device-parallel CSR kernel (`_assembleCsrAllGPUBilinearOperatorTRIA3`),
and the node-centric build-less kernel
(`_assembleBuildLessCsrBilinearOperatorTria3`) — store the same
accumulated value at every (row, column) pair of the matrix.  Values
are modelled in ℚ, so the agreement is exact, which implies agreement
within any floating-point summation-order tolerance. -/
theorem csr_strategies_agree (m : Mesh) (hm : ValidMesh m) (r c : Nat)
    (hr : r < m.nbNode) :
    matVal m (assembleSeq m) r c = matVal m (assembleGpu m) r c ∧
    matVal m (assembleGpu m) r c = matVal m (assembleBl m) r c := by
  constructor
  · rw [assembleSeq_matVal m hm hr, assembleGpu_matVal m hm hr, gpuContribs_eq]
  · rw [assembleGpu_matVal m hm hr, assembleBl_matVal m hm hr, gpuContribs_eq,
      blContribSum_eq_seq m hm hr c]

/-- Witness for C2 at the unit right triangle and entry (0, 1). -/
theorem csr_strategies_agree_witness :
    (0 : Nat) < singleTriMesh.nbNode ∧
    (matVal singleTriMesh (assembleSeq singleTriMesh) 0 1 =
        matVal singleTriMesh (assembleGpu singleTriMesh) 0 1 ∧
      matVal singleTriMesh (assembleGpu singleTriMesh) 0 1 =
        matVal singleTriMesh (assembleBl singleTriMesh) 0 1) :=
  ⟨by decide, csr_strategies_agree singleTriMesh singleTriMesh_valid 0 1 (by decide)⟩

/-! ### Claim C7 -/

theorem seqContribs_own (m : Mesh) : ∀ t ∈ seqContribs m, m.own t.1 = true := by
  intro t ht
  rw [seqContribs, List.mem_flatMap] at ht
  obtain ⟨C, hC, ht⟩ := ht
  rw [seqCellContribs, List.mem_flatMap] at ht
  obtain ⟨i, hi, ht⟩ := ht
  rw [List.mem_flatMap] at ht
  obtain ⟨j, hj, ht⟩ := ht
  rw [mem_guard] at ht
  obtain ⟨hown, hteq⟩ := ht
  subst hteq
  exact hown

theorem gpuContribs_own (m : Mesh) : ∀ t ∈ gpuContribs m, m.own t.1 = true := by
  intro t ht
  rw [gpuContribs_eq] at ht
  exact seqContribs_own m t ht

theorem blContribs_own (m : Mesh) : ∀ t ∈ blContribs m, m.own t.1 = true := by
  intro t ht
  rw [blContribs, List.mem_flatMap] at ht
  obtain ⟨inode, hn, ht⟩ := ht
  rw [List.mem_flatMap] at ht
  obtain ⟨C, hC, ht⟩ := ht
  rw [blNodeCellContribs, List.mem_flatMap] at ht
  obtain ⟨i, hi, ht⟩ := ht
  rw [mem_guard] at ht
  obtain ⟨hown, hteq⟩ := ht
  subst hteq
  exact hown

theorem contribSum_ghost (cs : List Contrib) (r : Nat) (h : ∀ t ∈ cs, t.1 ≠ r) (c : Nat) :
    contribSum cs r c = 0 := by
  rw [contribSum]
  apply List.sum_eq_zero
  intro q hq
  rw [List.mem_map] at hq
  obtain ⟨t, ht, hv⟩ := hq
  rw [← hv, if_neg (fun hand => h t ht hand.1)]

theorem buildState_val (m : Mesh) :
    (buildMatrixCsrState m).val = (initState m).val := by
  rw [buildMatrixCsrState]
  have h : ∀ (ins : List (Nat × Nat)) (s : CsrState),
      (ins.foldl (applySetCoord m) s).val = s.val := by
    intro ins
    induction ins with
    | nil => intro s; rfl
    | cons t ins ih =>
      intro s
      rw [List.foldl_cons]
      exact ih (applySetCoord m s t)
  exact h (buildMatrixCsrInsertions m) (initState m)

/-- C7: during every scatter pass, writes are guarded by the ownership
check on the row node, so the reserved span of a non-owned (ghost)
node's row is never touched by the scatter loop of any of the three
strategies: in the two build-less-sparsity strategies its slots stay at
their initial sentinel/zero values, in the sequential pre-built
strategy they keep their post-build column structure with all values
still zero, and the stored matrix entry of a ghost row is 0 in every
column. -/
theorem ghost_rows_never_written (m : Mesh) (hm : ValidMesh m) (r : Nat)
    (hr : r < m.nbNode) (hghost : m.own r = false) :
    (∀ i, rowBegin m r ≤ i → i < rowBegin m r + rowLen m r →
      ((assembleGpu m).col.getD i 0 = -1 ∧ (assembleGpu m).val.getD i 0 = 0) ∧
      ((assembleBl m).col.getD i 0 = -1 ∧ (assembleBl m).val.getD i 0 = 0) ∧
      ((assembleSeq m).col.getD i 0 = (buildMatrixCsrState m).col.getD i 0 ∧
        (assembleSeq m).val.getD i 0 = 0)) ∧
    (∀ c : Nat, matVal m (assembleGpu m) r c = 0 ∧ matVal m (assembleBl m) r c = 0 ∧
      matVal m (assembleSeq m) r c = 0) := by
  have hcap := span_in_capacity m hm hr
  have hgpu_ne : ∀ t ∈ gpuContribs m, t.1 ≠ r := by
    intro t ht heq
    have h1 := gpuContribs_own m t ht
    rw [heq, hghost] at h1
    exact Bool.noConfusion h1
  have hbl_ne : ∀ t ∈ blContribs m, t.1 ≠ r := by
    intro t ht heq
    have h1 := blContribs_own m t ht
    rw [heq, hghost] at h1
    exact Bool.noConfusion h1
  have hseq_ne : ∀ t ∈ seqContribs m, t.1 ≠ r := by
    intro t ht heq
    have h1 := seqContribs_own m t ht
    rw [heq, hghost] at h1
    exact Bool.noConfusion h1
  have hgpueq : assembleGpu m = (gpuContribs m).foldl (applyCanon m) (initState m) := by
    rw [assembleGpu, foldGpu_eq m hm _ _ (initState_stateOk m hm) (gpuContribs_valid m hm)]
  have hbleq : assembleBl m = (blContribs m).foldl (applyCanon m) (initState m) := by
    rw [assembleBl, foldBl_eq m hm _ _ (initState_stateOk m hm) (blContribs_valid m hm)]
  have hseqeq : assembleSeq m = (seqContribs m).foldl (applyCanon m) (buildMatrixCsrState m) := by
    rw [assembleSeq, applySeq_eq_applyCanon m]
  have hgpu := (foldCanon_spec m hm (gpuContribs m) (initState m)
    (initState_stateOk m hm) (gpuContribs_valid m hm)).2.2 r hr hgpu_ne
  have hbl := (foldCanon_spec m hm (blContribs m) (initState m)
    (initState_stateOk m hm) (blContribs_valid m hm)).2.2 r hr hbl_ne
  have hseq := (foldCanon_spec m hm (seqContribs m) (buildMatrixCsrState m)
    (buildState_facts m hm).1 (seqContribs_valid m hm)).2.2 r hr hseq_ne
  constructor
  · intro i hi1 hi2
    have hicap : i < capacityNNZ m := by omega
    have hinitc : (initState m).col.getD i 0 = -1 := getD_replicate _ _ _ _ hicap
    have hinitv : (initState m).val.getD i 0 = 0 := getD_replicate _ _ _ _ hicap
    refine ⟨⟨?_, ?_⟩, ⟨?_, ?_⟩, ?_, ?_⟩
    · rw [hgpueq, (hgpu i hi1 hi2).1, hinitc]
    · rw [hgpueq, (hgpu i hi1 hi2).2, hinitv]
    · rw [hbleq, (hbl i hi1 hi2).1, hinitc]
    · rw [hbleq, (hbl i hi1 hi2).2, hinitv]
    · rw [hseqeq, (hseq i hi1 hi2).1]
    · rw [hseqeq, (hseq i hi1 hi2).2, buildState_val, hinitv]
  · intro c
    refine ⟨?_, ?_, ?_⟩
    · rw [assembleGpu_matVal m hm hr]
      exact contribSum_ghost _ r hgpu_ne c
    · rw [assembleBl_matVal m hm hr]
      exact contribSum_ghost _ r hbl_ne c
    · rw [assembleSeq_matVal m hm hr]
      exact contribSum_ghost _ r hseq_ne c

/-- Witness for C7 on the triangle whose node 2 is a ghost node. -/
theorem ghost_rows_never_written_witness :
    (2 : Nat) < ghostTriMesh.nbNode ∧ ghostTriMesh.own 2 = false ∧
    ((∀ i, rowBegin ghostTriMesh 2 ≤ i → i < rowBegin ghostTriMesh 2 + rowLen ghostTriMesh 2 →
      ((assembleGpu ghostTriMesh).col.getD i 0 = -1 ∧
        (assembleGpu ghostTriMesh).val.getD i 0 = 0) ∧
      ((assembleBl ghostTriMesh).col.getD i 0 = -1 ∧
        (assembleBl ghostTriMesh).val.getD i 0 = 0) ∧
      ((assembleSeq ghostTriMesh).col.getD i 0 =
          (buildMatrixCsrState ghostTriMesh).col.getD i 0 ∧
        (assembleSeq ghostTriMesh).val.getD i 0 = 0)) ∧
    (∀ c : Nat, matVal ghostTriMesh (assembleGpu ghostTriMesh) 2 c = 0 ∧
      matVal ghostTriMesh (assembleBl ghostTriMesh) 2 c = 0 ∧
      matVal ghostTriMesh (assembleSeq ghostTriMesh) 2 c = 0)) :=
  ⟨by decide, by decide,
    ghost_rows_never_written ghostTriMesh ghostTriMesh_valid 2 (by decide) (by decide)⟩

/-! ### Claim C1 -/

/-- A mesh with two nodes joined by one face. -/
def oneEdgeMesh : Mesh where
  nbNode := 2
  faces := [(0, 1)]
  cells := []
  coord := fun _ => (0, 0)
  own := fun _ => true

/-- Columns inserted into row `r` by an insertion list. -/
def rowInsertedCols (ins : List (Nat × Nat)) (r : Nat) : List Nat :=
  (ins.filter (fun t => t.1 = r)).map (fun t => t.2)

/-- C1 (failing evaluation): `_buildMatrixCsr` never inserts the
face's other endpoint, because both branches of its conditional at
CsrBiliAssembly.hxx:48 return `dofId(face.nodeId(1), 0)`.  On the mesh
with the single face (0, 1), the row of node 1 receives only column 1
(its own diagonal, twice), so its column set {1} misses the face
neighbour 0 demanded by the claim, whereas the corrected endpoint
comparison of `_buildMatrixGPU` inserts [1, 0]. -/
theorem buildMatrixCsr_misses_neighbor :
    rowInsertedCols (buildMatrixCsrInsertions oneEdgeMesh) 1 = [1, 1] ∧
    faceNbrs oneEdgeMesh 1 = [0] ∧
    (0 : Nat) ∉ rowInsertedCols (buildMatrixCsrInsertions oneEdgeMesh) 1 ∧
    rowInsertedCols (buildMatrixGPUInsertions oneEdgeMesh) 1 = [1, 0] := by
  decide

/-! ### Claim C3 -/

/-- The reserved row sizes, one per node (`nbFace() + 1` each). -/
def reservedRowSizes (m : Mesh) : List Nat :=
  (List.range m.nbNode).map (rowLen m)

/-- C3 (counterexample): on the two-triangles-sharing-an-edge mesh the
reserved row sizes are not the multiset {2, 2, 3, 3} stated by the
claim (which moreover sums to 10, not the claimed 14). -/
theorem two_triangle_row_sizes_counterexample :
    Multiset.ofList (reservedRowSizes twoTriMesh) ≠ ({2, 2, 3, 3} : Multiset Nat) ∧
    ([2, 2, 3, 3] : List Nat).sum ≠ 2 * 5 + 4 := by
  decide

/-- C3 (amended): every sparsity builder reserves exactly
`degree(node) + 1` slots for each node's row span (as the scatter
kernels delimit it), and the total capacity is exactly
`2*|faces| + |nodes|`; on the two-triangles mesh this gives reserved
row sizes [3, 4, 4, 3] — the multiset {3, 3, 4, 4} — summing to
2*5 + 4 = 14. -/
theorem reserved_capacity (m : Mesh) (hm : ValidMesh m) :
    (∀ r, r < m.nbNode →
      srcRowEnd m (capacityNNZ m) r - srcRowBegin m r = degree m r + 1) ∧
    (reservedRowSizes m).sum = 2 * m.faces.length + m.nbNode ∧
    reservedRowSizes twoTriMesh = [3, 4, 4, 3] ∧
    Multiset.ofList (reservedRowSizes twoTriMesh) = ({3, 3, 4, 4} : Multiset Nat) ∧
    (reservedRowSizes twoTriMesh).sum = 2 * 5 + 4 := by
  refine ⟨?_, ?_, by decide, by decide, by decide⟩
  · intro r hr
    rw [srcRowBegin_eq m hr, srcRowEnd_eq m hm hr rfl, rowLen]
    omega
  · have htot := rowBegin_total m hm
    rw [rowBegin, capacityNNZ] at htot
    rw [reservedRowSizes]
    omega

/-- Witness for C3's amended statement on the two-triangles mesh. -/
theorem reserved_capacity_witness :
    (∀ r, r < twoTriMesh.nbNode →
      srcRowEnd twoTriMesh (capacityNNZ twoTriMesh) r - srcRowBegin twoTriMesh r =
        degree twoTriMesh r + 1) ∧
    (reservedRowSizes twoTriMesh).sum = 2 * twoTriMesh.faces.length + twoTriMesh.nbNode ∧
    reservedRowSizes twoTriMesh = [3, 4, 4, 3] ∧
    Multiset.ofList (reservedRowSizes twoTriMesh) = ({3, 3, 4, 4} : Multiset Nat) ∧
    (reservedRowSizes twoTriMesh).sum = 2 * 5 + 4 :=
  reserved_capacity twoTriMesh twoTriMesh_valid

/-! ### Claim C4 -/

/-- Modelled from the spec: "the gradient of each linear shape function
is derived from the differences of the other two nodes' coordinates,
normalized by twice the signed area". -/
def specShapeGradient (m : Mesh) (C : Nat × Nat × Nat) : Nat → ℚ × ℚ
  | 0 =>
    (((m.coord (cellNode C 1)).2 - (m.coord (cellNode C 2)).2)
        / (2 * computeAreaTriangle3 m C),
     ((m.coord (cellNode C 2)).1 - (m.coord (cellNode C 1)).1)
        / (2 * computeAreaTriangle3 m C))
  | 1 =>
    (((m.coord (cellNode C 2)).2 - (m.coord (cellNode C 0)).2)
        / (2 * computeAreaTriangle3 m C),
     ((m.coord (cellNode C 0)).1 - (m.coord (cellNode C 2)).1)
        / (2 * computeAreaTriangle3 m C))
  | _ =>
    (((m.coord (cellNode C 0)).2 - (m.coord (cellNode C 1)).2)
        / (2 * computeAreaTriangle3 m C),
     ((m.coord (cellNode C 1)).1 - (m.coord (cellNode C 0)).1)
        / (2 * computeAreaTriangle3 m C))

/-- The closed-form stiffness matrix of the unit right triangle. -/
def rightTriKe : List (List ℚ) :=
  [[1, -1/2, -1/2], [-1/2, 1/2, 0], [-1/2, 0, 1/2]]

set_option maxHeartbeats 2000000 in
/-- C4: for a non-degenerate 3-node cell the element kernel returns
`K_e[i][j] = area * sum_k grad_i[k] * grad_j[k]` with the
shape-function gradients of the spec; on the right triangle with nodes
(0,0), (1,0), (0,1) the kernel returns exactly
[[1,-1/2,-1/2],[-1/2,1/2,0],[-1/2,0,1/2]], and the assembled global
3×3 system of the one-triangle mesh holds exactly this matrix. -/
theorem element_kernel_formula (m : Mesh) (C : Nat × Nat × Nat)
    (hA : computeAreaTriangle3 m C ≠ 0) {i j : Nat} (hi : i < 3) (hj : j < 3) :
    (computeElementMatrixTRIA3 m C i j =
      computeAreaTriangle3 m C *
        ((specShapeGradient m C i).1 * (specShapeGradient m C j).1 +
         (specShapeGradient m C i).2 * (specShapeGradient m C j).2)) ∧
    (∀ i2 j2, i2 < 3 → j2 < 3 →
      computeElementMatrixTRIA3 singleTriMesh (0, 1, 2) i2 j2 =
        (rightTriKe.getD i2 []).getD j2 0) ∧
    (∀ i2 j2, i2 < 3 → j2 < 3 →
      matVal singleTriMesh (assembleSeq singleTriMesh) i2 j2 =
        (rightTriKe.getD i2 []).getD j2 0) := by
  refine ⟨?_, ?_, ?_⟩
  · interval_cases i <;> interval_cases j <;>
      (norm_num [computeElementMatrixTRIA3, bMatrixCpu, specShapeGradient, dPhi];
       field_simp; ring)
  · intro i2 j2 hi2 hj2
    interval_cases i2 <;> interval_cases j2 <;>
      norm_num [computeElementMatrixTRIA3, bMatrixCpu, computeAreaTriangle3, dPhi,
        cellNode, singleTriMesh, rightTriKe]
  · intro i2 j2 hi2 hj2
    have hmv := assembleSeq_matVal singleTriMesh singleTriMesh_valid
      (r := i2) (c := j2) hi2
    rw [hmv]
    interval_cases i2 <;> interval_cases j2 <;>
      norm_num [contribSum, seqContribs, seqCellContribs, singleTriMesh,
        computeElementMatrixTRIA3, bMatrixCpu, computeAreaTriangle3, dPhi, cellNode,
        rightTriKe, List.range_succ]

/-- Witness for C4 at the unit right triangle, entry (0, 1). -/
theorem element_kernel_formula_witness :
    computeAreaTriangle3 singleTriMesh (0, 1, 2) ≠ 0 ∧
    ((computeElementMatrixTRIA3 singleTriMesh (0, 1, 2) 0 1 =
      computeAreaTriangle3 singleTriMesh (0, 1, 2) *
        ((specShapeGradient singleTriMesh (0, 1, 2) 0).1 *
            (specShapeGradient singleTriMesh (0, 1, 2) 1).1 +
         (specShapeGradient singleTriMesh (0, 1, 2) 0).2 *
            (specShapeGradient singleTriMesh (0, 1, 2) 1).2)) ∧
    (∀ i2 j2, i2 < 3 → j2 < 3 →
      computeElementMatrixTRIA3 singleTriMesh (0, 1, 2) i2 j2 =
        (rightTriKe.getD i2 []).getD j2 0) ∧
    (∀ i2 j2, i2 < 3 → j2 < 3 →
      matVal singleTriMesh (assembleSeq singleTriMesh) i2 j2 =
        (rightTriKe.getD i2 []).getD j2 0)) :=
  ⟨by norm_num [computeAreaTriangle3, singleTriMesh, cellNode],
    element_kernel_formula singleTriMesh (0, 1, 2)
      (by norm_num [computeAreaTriangle3, singleTriMesh, cellNode])
      (i := 0) (j := 1) (by omega) (by omega)⟩

/-! ### Claim C5 -/

/-- The shared CSR column/value arrays seen by the GPU command. -/
structure RaceMem where
  col : List Int
  val : List ℚ
  deriving DecidableEq

/-- The control point of one device unit inside the probe loop of
`_assembleCsrAllGPUBilinearOperatorTRIA3` (CsrGpuBiliAssembly.hxx,
lines 107–120).  Each transition of `threadStep` performs at most one
access to the shared arrays: `scan b` is about to read `col[b]`,
`observed b x` holds the value just read and performs the branch (the
atomic add, or the plain claim write to `col[b]`), `claimVal b` is
between the two separate claim writes `col[b] = c` and `val[b] = v`. -/
inductive Phase where
  | scan : Nat → Phase
  | observed : Nat → Int → Phase
  | claimVal : Nat → Phase
  | finished : Phase
  | dropped : Phase
  deriving DecidableEq

/-- One memory access of the probe loop of
`_assembleCsrAllGPUBilinearOperatorTRIA3` by a unit with row span end
`stop`, target column `c` and contribution `v`: the match branch is the
single-access `ax::doAtomic<Add>`, but the sentinel branch is two plain
writes with no compare-and-swap. -/
def threadStep (stop : Nat) (c : Int) (v : ℚ) (mem : RaceMem) : Phase → RaceMem × Phase
  | .scan b =>
      if b < stop then (mem, .observed b (mem.col.getD b 0)) else (mem, .dropped)
  | .observed b x =>
      if x = c then ({ mem with val := mem.val.set b (mem.val.getD b 0 + v) }, .finished)
      else if x = -1 then ({ mem with col := mem.col.set b c }, .claimVal b)
      else (mem, .scan (b + 1))
  | .claimVal b => ({ mem with val := mem.val.set b v }, .finished)
  | .finished => (mem, .finished)
  | .dropped => (mem, .dropped)

/-- Run two units A (column `cA`, value `vA`) and B (column `cB`,
value `vB`) under an interleaving schedule (`true` steps A). -/
def raceRun (stop : Nat) (cA cB : Int) (vA vB : ℚ) :
    List Bool → RaceMem × Phase × Phase → RaceMem × Phase × Phase
  | [], s => s
  | who :: rest, (mem, pA, pB) =>
      if who then
        let s2 := threadStep stop cA vA mem pA
        raceRun stop cA cB vA vB rest (s2.1, s2.2, pB)
      else
        let s2 := threadStep stop cB vB mem pB
        raceRun stop cA cB vA vB rest (s2.1, pA, s2.2)

/-- C5 (failing execution): the sentinel claim of
`_assembleCsrAllGPUBilinearOperatorTRIA3` is not atomic.  Two units
targeting the same empty slot with different columns 0 and 1, under the
interleaving where both read the sentinel before either writes, both
take the claim branch: B overwrites A's already-claimed slot, B never
probes forward, and A's whole contribution (column 0, value 1) is lost
from the final arrays — while any serial order stores both columns.
(`_addValueToGlobalMatrixTria3Gpu` has no atomic operation at all.) -/
theorem csr_gpu_claim_race_loses_contribution :
    raceRun 2 0 1 1 2 [true, false, true, true, false, false]
        (⟨[-1, -1], [0, 0]⟩, Phase.scan 0, Phase.scan 0) =
      (⟨[1, -1], [2, 0]⟩, Phase.finished, Phase.finished) ∧
    raceRun 2 0 1 1 2 [true, true, true, false, false, false, false, false]
        (⟨[-1, -1], [0, 0]⟩, Phase.scan 0, Phase.scan 0) =
      (⟨[0, 1], [1, 2]⟩, Phase.finished, Phase.finished) ∧
    ¬ (0 : Int) ∈ [(1 : Int), -1] := by
  refine ⟨rfl, rfl, by decide⟩

/-! ### Claim C6 -/

/-- C6 (failing evaluation): when the probe exhausts the row span
without a match or a sentinel, both scatter probes return the arrays
unchanged and signal nothing — the contribution `1` to the full row
`[5]` under target column `7` is silently dropped (the return type has
no error channel, and neither loop has a fatal branch). -/
theorem probe_exhaustion_drops_silently :
    addValueToGlobalMatrixTria3Gpu 0 1 7 [5] [0] 1 = ([5], [0]) ∧
    csrGpuProbeAdd 0 1 7 [5] [0] 1 = ([5], [0]) := by
  constructor
  · rw [addValueToGlobalMatrixTria3Gpu, addValueToGlobalMatrixTria3Gpu]
    norm_num
  · rw [csrGpuProbeAdd, csrGpuProbeAdd]
    norm_num

/-! ### Claim C8 -/

/-- A bounds-checked array write: `none` exactly when the index is out
of the allocated range. -/
def setChecked {α : Type} : List α → Nat → α → Option (List α)
  | [], _, _ => none
  | _ :: xs, 0, v => some (v :: xs)
  | x :: xs, n + 1, v => (setChecked xs n v).map (fun r => x :: r)

/-- Bounds-checked translation of `_buildMatrixBuildLessCsr`
(BlcsrBiliAssembly.hxx): allocate the row array of size `nbNode`, write
`m_matrix_row(0) = 0` unconditionally, then for each node under the
guard `index < nbnde` write
`row(index) = nbFace(node) + row(index - 1) + 1`. -/
def buildLessCsrRowsChecked (m : Mesh) : Option (List Nat) :=
  (setChecked (List.replicate m.nbNode 0) 0 0).bind (fun r0 =>
    ((List.range m.nbNode).foldl
      (fun acc n => acc.bind (fun p =>
        if p.1 < m.nbNode then
          (setChecked p.2 p.1 (degree m n + p.2.getD (p.1 - 1) 0 + 1)).map
            (fun r => (p.1 + 1, r))
        else some p))
      (some ((1 : Nat), r0))).map (fun p => p.2))

/-- Bounds-checked translation of `_buildMatrixGpuBuildLessCsr`
(BlcsrBiliAssembly.hxx): write `nbFace(node) + 1` into `tmp_row` at
each node's DoF id, then exclusive-scan `tmp_row` into the row array. -/
def buildGpuLessCsrRowsChecked (m : Mesh) : Option (List Nat) :=
  ((List.range m.nbNode).foldl
      (fun acc n => acc.bind (fun t => setChecked t n (degree m n + 1)))
      (some (List.replicate m.nbNode 0))).map
    (fun t => (t.foldl (fun p d => (p.1 + d, p.2 ++ [p.1])) (0, [])).2)

/-- Bounds-checked translation of the array traffic of
`_buildMatrixCsr` (CsrBiliAssembly.hxx): allocate `nnz = 2*|faces| +
|nodes|` column/value slots and `nbNode` row offsets, then enumerate
the nodes performing their `setCoordinates` insertions; each insertion
probes only its own row span, so it is checked against the column
array bound. -/
def buildMatrixCsrChecked (m : Mesh) : Option (List Nat × List Int) :=
  (buildMatrixCsrInsertions m).foldl
    (fun acc t => acc.bind (fun p =>
      if srcRowEnd m (capacityNNZ m) t.1 ≤ capacityNNZ m then some p else none))
    (some (matrixRowArray m, List.replicate (capacityNNZ m) (-1)))

/-- A mesh with no nodes, no faces and no cells. -/
def emptyMesh : Mesh where
  nbNode := 0
  faces := []
  cells := []
  coord := fun _ => (0, 0)
  own := fun _ => true

/-- C8 (failing input): on the zero-node mesh the build-less sparsity
builder `_buildMatrixBuildLessCsr` performs the unconditional write
`m_csr_matrix.m_matrix_row(0) = 0` into a row array of allocated size
0 — an out-of-bounds access, refuting "no array access outside the
allocated (empty) arrays occurs" — while the GPU build-less builder
and `_buildMatrixCsr` complete on the same mesh with empty arrays,
and the offending write is in bounds on any mesh with a node. -/
theorem empty_mesh_row_write_out_of_bounds :
    buildLessCsrRowsChecked emptyMesh = none ∧
    buildGpuLessCsrRowsChecked emptyMesh = some [] ∧
    buildMatrixCsrChecked emptyMesh = some ([], []) ∧
    buildLessCsrRowsChecked singleTriMesh = some [0, 3, 6] := by
  refine ⟨rfl, rfl, rfl, by decide⟩

/-! ### Claim C9 -/

/-- The assembled linear system as the scalar stores the spec's
interface mutates: matrix entry lookup and right-hand-side lookup. -/
structure LinearSystem where
  a : Nat → Nat → ℚ
  rhs : Nat → ℚ

/-- Modelled from the spec: `matrixSetValue(row, col, value)` has set
(overwrite) semantics. -/
def lsMatrixSetValue (s : LinearSystem) (r c : Nat) (v : ℚ) : LinearSystem :=
  { s with a := fun r2 c2 => if r2 = r ∧ c2 = c then v else s.a r2 c2 }

/-- Modelled from the spec: `matrixAddValue(row, col, value)` has add
(accumulate) semantics. -/
def lsMatrixAddValue (s : LinearSystem) (r c : Nat) (v : ℚ) : LinearSystem :=
  { s with a := fun r2 c2 => if r2 = r ∧ c2 = c then s.a r2 c2 + v else s.a r2 c2 }

/-- `rhs_values[dof_id] = u_g`: overwrite one right-hand-side slot. -/
def lsSetRhs (s : LinearSystem) (i : Nat) (v : ℚ) : LinearSystem :=
  { s with rhs := fun j => if j = i then v else s.rhs j }

/-- The Penalty pass of `_assembleLinearOperator` (FemModule.cc
443–453): for each own node carrying the Dirichlet flag,
`matrixSetValue(dof, dof, Penalty)` then `rhs_values[dof] =
Penalty * m_u[node]`. -/
def applyPenalty (own : List Nat) (dir : Nat → Bool) (u : Nat → ℚ) (P : ℚ)
    (s : LinearSystem) : LinearSystem :=
  own.foldl (fun st n =>
    if dir n then lsSetRhs (lsMatrixSetValue st n n P) n (P * u n) else st) s

/-- The WeakPenalty pass of `_assembleLinearOperator` (FemModule.cc
487–496): identical except `matrixAddValue(dof, dof, Penalty)`. -/
def applyWeakPenalty (own : List Nat) (dir : Nat → Bool) (u : Nat → ℚ) (P : ℚ)
    (s : LinearSystem) : LinearSystem :=
  own.foldl (fun st n =>
    if dir n then lsSetRhs (lsMatrixAddValue st n n P) n (P * u n) else st) s

theorem applyPenalty_untouched (own : List Nat) (dir : Nat → Bool) (u : Nat → ℚ)
    (P : ℚ) (s : LinearSystem) (n : Nat) (hn : n ∉ own) :
    (applyPenalty own dir u P s).a n n = s.a n n ∧
    (applyPenalty own dir u P s).rhs n = s.rhs n := by
  induction own generalizing s with
  | nil => exact ⟨rfl, rfl⟩
  | cons m l ih =>
    have hnm : n ≠ m := fun h => hn (h ▸ List.mem_cons_self m l)
    have hnl : n ∉ l := fun h => hn (List.mem_cons_of_mem m h)
    rw [applyPenalty, List.foldl_cons]
    by_cases hd : dir m
    · rw [if_pos hd]
      have := ih (lsSetRhs (lsMatrixSetValue s m m P) m (P * u m)) hnl
      rw [applyPenalty] at this
      refine ⟨this.1.trans ?_, this.2.trans ?_⟩
      · show (if n = m ∧ n = m then P else s.a n n) = s.a n n
        rw [if_neg (fun h => hnm h.1)]
      · show (if n = m then P * u m else s.rhs n) = s.rhs n
        rw [if_neg hnm]
    · rw [if_neg hd]
      exact ih s hnl

theorem applyWeakPenalty_untouched (own : List Nat) (dir : Nat → Bool) (u : Nat → ℚ)
    (P : ℚ) (s : LinearSystem) (n : Nat) (hn : n ∉ own) :
    (applyWeakPenalty own dir u P s).a n n = s.a n n ∧
    (applyWeakPenalty own dir u P s).rhs n = s.rhs n := by
  induction own generalizing s with
  | nil => exact ⟨rfl, rfl⟩
  | cons m l ih =>
    have hnm : n ≠ m := fun h => hn (h ▸ List.mem_cons_self m l)
    have hnl : n ∉ l := fun h => hn (List.mem_cons_of_mem m h)
    rw [applyWeakPenalty, List.foldl_cons]
    by_cases hd : dir m
    · rw [if_pos hd]
      have := ih (lsSetRhs (lsMatrixAddValue s m m P) m (P * u m)) hnl
      rw [applyWeakPenalty] at this
      refine ⟨this.1.trans ?_, this.2.trans ?_⟩
      · show (if n = m ∧ n = m then s.a n n + P else s.a n n) = s.a n n
        rw [if_neg (fun h => hnm h.1)]
      · show (if n = m then P * u m else s.rhs n) = s.rhs n
        rw [if_neg hnm]
    · rw [if_neg hd]
      exact ih s hnl

/-- C9: over any duplicate-free own-node enumeration, for every own
Dirichlet node the Penalty pass leaves the diagonal entry exactly `P`
(set semantics, overwriting the assembled value) and the WeakPenalty
pass leaves it exactly the previously assembled value plus `P` (add
semantics); both passes set the right-hand-side slot to `P` times the
prescribed value. -/
theorem penalty_sets_weak_penalty_adds (own : List Nat) (hnd : own.Nodup)
    (dir : Nat → Bool) (u : Nat → ℚ) (P : ℚ) (s s2 : LinearSystem)
    (n : Nat) (hn : n ∈ own) (hd : dir n = true) :
    (applyPenalty own dir u P s).a n n = P ∧
    (applyPenalty own dir u P s).rhs n = P * u n ∧
    (applyWeakPenalty own dir u P s2).a n n = s2.a n n + P ∧
    (applyWeakPenalty own dir u P s2).rhs n = P * u n := by
  induction own generalizing s s2 with
  | nil => exact absurd hn (List.not_mem_nil n)
  | cons m l ih =>
    have hnd2 := List.nodup_cons.mp hnd
    rw [applyPenalty, applyWeakPenalty, List.foldl_cons, List.foldl_cons]
    rcases List.mem_cons.mp hn with hnm | hnl
    · subst hnm
      rw [hd, if_pos rfl]
      have h1 := applyPenalty_untouched l dir u P
        (lsSetRhs (lsMatrixSetValue s n n P) n (P * u n)) n hnd2.1
      have h2 := applyWeakPenalty_untouched l dir u P
        (lsSetRhs (lsMatrixAddValue s2 n n P) n (P * u n)) n hnd2.1
      rw [applyPenalty] at h1
      rw [applyWeakPenalty] at h2
      refine ⟨h1.1.trans ?_, h1.2.trans ?_, h2.1.trans ?_, h2.2.trans ?_⟩
      · show (if n = n ∧ n = n then P else s.a n n) = P
        rw [if_pos ⟨rfl, rfl⟩]
      · show (if n = n then P * u n else s.rhs n) = P * u n
        rw [if_pos rfl]
      · show (if n = n ∧ n = n then s2.a n n + P else s2.a n n) = s2.a n n + P
        rw [if_pos ⟨rfl, rfl⟩]
      · show (if n = n then P * u n else s2.rhs n) = P * u n
        rw [if_pos rfl]
    · have hnm : n ≠ m := fun h => hnd2.1 (h ▸ hnl)
      by_cases hdm : dir m
      · rw [if_pos hdm, if_pos hdm]
        have := ih hnd2.2 (lsSetRhs (lsMatrixSetValue s m m P) m (P * u m))
          (lsSetRhs (lsMatrixAddValue s2 m m P) m (P * u m)) hnl
        rw [applyPenalty, applyWeakPenalty] at this
        refine ⟨this.1, this.2.1, this.2.2.1.trans ?_, this.2.2.2⟩
        show (if n = m ∧ n = m then s2.a n n + P else s2.a n n) + P = s2.a n n + P
        rw [if_neg (fun h => hnm h.1)]
      · rw [if_neg hdm, if_neg hdm]
        exact ih hnd2.2 s s2 hnl

/-- Witness for C9: own nodes [0, 1], Dirichlet flag on node 0,
prescribed value 5, penalty 7, previously assembled diagonal 2. -/
theorem penalty_sets_weak_penalty_adds_witness :
    ([0, 1] : List Nat).Nodup ∧ 0 ∈ ([0, 1] : List Nat) ∧
      (fun n => n == 0) 0 = true ∧
    ((applyPenalty [0, 1] (fun n => n == 0) (fun _ => 5) 7
        ⟨fun _ _ => 2, fun _ => 0⟩).a 0 0 = 7 ∧
     (applyPenalty [0, 1] (fun n => n == 0) (fun _ => 5) 7
        ⟨fun _ _ => 2, fun _ => 0⟩).rhs 0 = 7 * (fun _ => (5 : ℚ)) 0 ∧
     (applyWeakPenalty [0, 1] (fun n => n == 0) (fun _ => 5) 7
        ⟨fun _ _ => 2, fun _ => 0⟩).a 0 0 =
       (⟨fun _ _ => 2, fun _ => 0⟩ : LinearSystem).a 0 0 + 7 ∧
     (applyWeakPenalty [0, 1] (fun n => n == 0) (fun _ => 5) 7
        ⟨fun _ _ => 2, fun _ => 0⟩).rhs 0 = 7 * (fun _ => (5 : ℚ)) 0) :=
  ⟨by decide, by decide, rfl,
    penalty_sets_weak_penalty_adds [0, 1] (by decide) (fun n => n == 0)
      (fun _ => 5) 7 ⟨fun _ _ => 2, fun _ => 0⟩ ⟨fun _ _ => 2, fun _ => 0⟩
      0 (by decide) rfl⟩

/-! ### Claim C10 -/

/-- The stored CSR view of the Hypre backend (`m_csr_view`). -/
structure CsrViewModel where
  rows : List Nat
  cols : List Int
  vals : List ℚ

/-- The backend error raised by `ARCANE_THROW(NotImplementedException, "")`. -/
inductive HypreOpError where
  | notImplemented : HypreOpError
  deriving DecidableEq

/-- `HypreDoFLinearSystemImpl` state: only the CSR view matters to the
operations modelled here. -/
structure HypreImpl where
  csrView : CsrViewModel

/-- `HypreDoFLinearSystemImpl::matrixAddValue`: unconditionally throws. -/
def hypreMatrixAddValue (s : HypreImpl) (r c : Nat) (v : ℚ) :
    Except HypreOpError HypreImpl :=
  Except.error HypreOpError.notImplemented

/-- `HypreDoFLinearSystemImpl::matrixSetValue`: unconditionally throws. -/
def hypreMatrixSetValue (s : HypreImpl) (r c : Nat) (v : ℚ) :
    Except HypreOpError HypreImpl :=
  Except.error HypreOpError.notImplemented

/-- `HypreDoFLinearSystemImpl::eliminateRow`: unconditionally throws. -/
def hypreEliminateRow (s : HypreImpl) (r : Nat) (v : ℚ) :
    Except HypreOpError HypreImpl :=
  Except.error HypreOpError.notImplemented

/-- `HypreDoFLinearSystemImpl::eliminateRowColumn`: unconditionally throws. -/
def hypreEliminateRowColumn (s : HypreImpl) (r : Nat) (v : ℚ) :
    Except HypreOpError HypreImpl :=
  Except.error HypreOpError.notImplemented

/-- `HypreDoFLinearSystemImpl::setCSRValues`: stores the view. -/
def hypreSetCSRValues (s : HypreImpl) (view : CsrViewModel) : HypreImpl :=
  { s with csrView := view }

/-- `HypreDoFLinearSystemImpl::hasSetCSRValues`: constant `true`. -/
def hypreHasSetCSRValues (s : HypreImpl) : Bool :=
  true

/-- A caller assembling through per-coordinate adds: each contribution
goes through `matrixAddValue`, short-circuiting on the thrown error. -/
def hypreApplyAdds (s : HypreImpl) : List (Nat × Nat × ℚ) → Except HypreOpError HypreImpl
  | [] => Except.ok s
  | t :: rest => (hypreMatrixAddValue s t.1 t.2.1 t.2.2).bind
      (fun s2 => hypreApplyAdds s2 rest)

/-- C10: on the Hypre backend every per-coordinate mutation —
matrixAddValue, matrixSetValue, eliminateRow, eliminateRowColumn —
throws NotImplementedException for every input, so any per-coordinate
assembly sequence with at least one contribution fails; only the bulk
handoff works: setCSRValues stores the given view and
hasSetCSRValues always answers true. -/
theorem hypre_per_coordinate_ops_throw :
    (∀ s r c v, hypreMatrixAddValue s r c v = Except.error HypreOpError.notImplemented) ∧
    (∀ s r c v, hypreMatrixSetValue s r c v = Except.error HypreOpError.notImplemented) ∧
    (∀ s r v, hypreEliminateRow s r v = Except.error HypreOpError.notImplemented) ∧
    (∀ s r v, hypreEliminateRowColumn s r v = Except.error HypreOpError.notImplemented) ∧
    (∀ s t rest, hypreApplyAdds s (t :: rest) = Except.error HypreOpError.notImplemented) ∧
    (∀ s view, (hypreSetCSRValues s view).csrView = view) ∧
    (∀ s, hypreHasSetCSRValues s = true) :=
  ⟨fun _ _ _ _ => rfl, fun _ _ _ _ => rfl, fun _ _ _ => rfl, fun _ _ _ => rfl,
    fun _ _ _ => rfl, fun _ _ => rfl, fun _ => rfl⟩

end ArcaneFem
